import Mathlib

/-!
Verification development for the komihash 5.10 hash function, the komirand
PRNG, and the streamed komihash variant (file `komihash.h`).

Memory is modelled as a total function from `Int` addresses to `Nat` values;
a byte read takes the value modulo 256.  All 64-bit arithmetic is done in
`Nat` with explicit reduction modulo `2 ^ 64` where the C code wraps.
-/

set_option maxRecDepth 4000

abbrev Mem := Int → Nat

/-- Value of the byte stored at address `a`. -/
def khB (m : Mem) (a : Int) : Nat := m a % 256

/-- `kh_lu32ec`: endianness-corrected unaligned 32-bit load (little-endian
value of the 4 bytes at `p`, as produced by `memcpy` on a little-endian
machine, or byte-swapped on a big-endian one). -/
def kh_lu32ec (m : Mem) (p : Int) : Nat :=
  khB m p + khB m (p + 1) * 2 ^ 8 + khB m (p + 2) * 2 ^ 16 + khB m (p + 3) * 2 ^ 24

/-- `kh_lu64ec`: endianness-corrected unaligned 64-bit load. -/
def kh_lu64ec (m : Mem) (p : Int) : Nat :=
  khB m p + khB m (p + 1) * 2 ^ 8 + khB m (p + 2) * 2 ^ 16 + khB m (p + 3) * 2 ^ 24 +
  khB m (p + 4) * 2 ^ 32 + khB m (p + 5) * 2 ^ 40 + khB m (p + 6) * 2 ^ 48 +
  khB m (p + 7) * 2 ^ 56

/-- `kh_lpu64ec_l3`: padded tail loader permitting `Msg[-3]` reads. -/
def kh_lpu64ec_l3 (m : Mem) (Msg : Int) (MsgLen : Nat) : Nat :=
  let ml8 := MsgLen * 8
  if MsgLen < 4 then
    let Msg3 := Msg + (MsgLen : Int) - 3
    let mv := khB m Msg3 ||| khB m (Msg3 + 1) <<< 8 ||| khB m (Msg3 + 2) <<< 16
    1 <<< ml8 ||| mv >>> (24 - ml8)
  else
    let mh := kh_lu32ec m (Msg + (MsgLen : Int) - 4)
    let ml := kh_lu32ec m Msg
    1 <<< ml8 ||| ml ||| (mh >>> (64 - ml8)) <<< 32

/-- `kh_lpu64ec_nz`: padded tail loader for non-zero remaining length. -/
def kh_lpu64ec_nz (m : Mem) (Msg : Int) (MsgLen : Nat) : Nat :=
  let ml8 := MsgLen * 8
  if MsgLen < 4 then
    let m0 := khB m Msg
    let m1 :=
      if MsgLen > 1 then
        if MsgLen > 2 then m0 ||| khB m (Msg + 1) <<< 8 ||| khB m (Msg + 2) <<< 16
        else m0 ||| khB m (Msg + 1) <<< 8
      else m0
    1 <<< ml8 ||| m1
  else
    let mh := kh_lu32ec m (Msg + (MsgLen : Int) - 4)
    let ml := kh_lu32ec m Msg
    1 <<< ml8 ||| ml ||| (mh >>> (64 - ml8)) <<< 32

/-- `kh_lpu64ec_l4`: padded tail loader permitting `Msg[-4]` reads. -/
def kh_lpu64ec_l4 (m : Mem) (Msg : Int) (MsgLen : Nat) : Nat :=
  let ml8 := MsgLen * 8
  if MsgLen < 5 then
    let mv := kh_lu32ec m (Msg + (MsgLen : Int) - 4)
    1 <<< ml8 ||| mv >>> (32 - ml8)
  else
    let mv := kh_lu64ec m (Msg + (MsgLen : Int) - 8)
    1 <<< ml8 ||| mv >>> (64 - ml8)

/-- High half of the 128-bit product of two 64-bit values. -/
def khHi (u v : Nat) : Nat := u * v / 2 ^ 64

/-- Low half of the 128-bit product of two 64-bit values. -/
def khLo (u v : Nat) : Nat := u * v % 2 ^ 64

/-- `kh_m128` in its `unsigned __int128` form: given multiplicands and the
current accumulator value, returns the pair (`*rl`, new `*rha`). -/
def kh_m128_u128 (u v rha : Nat) : Nat × Nat :=
  ((u * v) % 2 ^ 64, (rha + u * v / 2 ^ 64) % 2 ^ 64)

/-- `kh_m128` in its 32-bit fallback form (four 32x32 partial products with
carry propagation, adapted from Hacker's Delight); returns (`*rl`, new
`*rha`).  Each C cast and 64-bit operation is made explicit. -/
def kh_m128_32 (u v rha : Nat) : Nat × Nat :=
  let rl := u * v % 2 ^ 64
  let u0 := u % 2 ^ 32
  let v0 := v % 2 ^ 32
  let w0 := u0 * v0 % 2 ^ 64
  let u1 := u / 2 ^ 32 % 2 ^ 32
  let v1 := v / 2 ^ 32 % 2 ^ 32
  let t := (u1 * v0 % 2 ^ 64 + w0 / 2 ^ 32 % 2 ^ 32) % 2 ^ 64
  let w1 := (u0 * v1 % 2 ^ 64 + t % 2 ^ 32) % 2 ^ 64
  (rl, (rha + (u1 * v1 % 2 ^ 64 + w1 / 2 ^ 32 % 2 ^ 32 + t / 2 ^ 32 % 2 ^ 32)) % 2 ^ 64)

/-- `KOMIHASH_HASHROUND`: `kh_m128(Seed1, Seed5, &Seed1, &Seed5); Seed1 ^= Seed5`. -/
def hashRound (s1 s5 : Nat) : Nat × Nat :=
  let r5 := (s5 + khHi s1 s5) % 2 ^ 64
  let r1 := khLo s1 s5 ^^^ r5
  (r1, r5)

/-- `KOMIHASH_HASH16` with the two 64-bit message words already loaded. -/
def hash16w (w1 w2 s1 s5 : Nat) : Nat × Nat :=
  let r5 := (s5 + khHi (s1 ^^^ w1) (s5 ^^^ w2)) % 2 ^ 64
  let r1 := khLo (s1 ^^^ w1) (s5 ^^^ w2) ^^^ r5
  (r1, r5)

/-- `KOMIHASH_HASH16( m )`. -/
def hash16 (m : Mem) (p : Int) (s1 s5 : Nat) : Nat × Nat :=
  hash16w (kh_lu64ec m p) (kh_lu64ec m (p + 8)) s1 s5

/-- `KOMIHASH_HASHFIN`, with inputs `r1h`, `r2h` and the current `Seed5`
(the incoming `Seed1` is dead in this macro: `kh_m128` overwrites it). -/
def hashFin (r1h r2h s5 : Nat) : Nat :=
  let t5 := (s5 + khHi r1h r2h) % 2 ^ 64
  let t1 := khLo r1h r2h ^^^ t5
  (hashRound t1 t5).1

/-- The eight hashing state lanes `Seed1 .. Seed8`. -/
structure Lanes where
  s1 : Nat
  s2 : Nat
  s3 : Nat
  s4 : Nat
  s5 : Nat
  s6 : Nat
  s7 : Nat
  s8 : Nat
deriving DecidableEq

/-- Seed initialization: lanes 1 and 5 from the user seed, then one
`KOMIHASH_HASHROUND` (required for Perlin Noise). -/
def seedInit (UseSeed : Nat) : Nat × Nat :=
  hashRound (0x243F6A8885A308D3 ^^^ (UseSeed &&& 0x5555555555555555))
            (0x452821E638D01377 ^^^ (UseSeed &&& 0xAAAAAAAAAAAAAAAA))

/-- Derivation of the auxiliary lanes `Seed2..Seed4, Seed6..Seed8`. -/
def deriveLanes (s1 s5 : Nat) : Lanes :=
  { s1 := s1
    s2 := 0x13198A2E03707344 ^^^ s1
    s3 := 0xA4093822299F31D0 ^^^ s1
    s4 := 0x082EFA98EC4E6C89 ^^^ s1
    s5 := s5
    s6 := 0xBE5466CF34E90C6C ^^^ s5
    s7 := 0xC0AC29B7C97C50DD ^^^ s5
    s8 := 0x3F84D5B5B5470917 ^^^ s5 }

/-- The 8 lanes as initialized from a user seed (seed-init + round + derive),
as done on the first bulk-loop entry of `komihash_stream_update`. -/
def initLanes (UseSeed : Nat) : Lanes :=
  deriveLanes (seedInit UseSeed).1 (seedInit UseSeed).2

/-- One iteration of `KOMIHASH_HASHLOOP64`: four accumulating multiplications
over a 64-byte window followed by the cross-lane XOR shift. -/
def hashLoopIter (m : Mem) (p : Int) (L : Lanes) : Lanes :=
  let n5 := (L.s5 + khHi (L.s1 ^^^ kh_lu64ec m p) (L.s5 ^^^ kh_lu64ec m (p + 32))) % 2 ^ 64
  let n1 := khLo (L.s1 ^^^ kh_lu64ec m p) (L.s5 ^^^ kh_lu64ec m (p + 32))
  let n6 := (L.s6 + khHi (L.s2 ^^^ kh_lu64ec m (p + 8)) (L.s6 ^^^ kh_lu64ec m (p + 40))) % 2 ^ 64
  let n2 := khLo (L.s2 ^^^ kh_lu64ec m (p + 8)) (L.s6 ^^^ kh_lu64ec m (p + 40))
  let n7 := (L.s7 + khHi (L.s3 ^^^ kh_lu64ec m (p + 16)) (L.s7 ^^^ kh_lu64ec m (p + 48))) % 2 ^ 64
  let n3 := khLo (L.s3 ^^^ kh_lu64ec m (p + 16)) (L.s7 ^^^ kh_lu64ec m (p + 48))
  let n8 := (L.s8 + khHi (L.s4 ^^^ kh_lu64ec m (p + 24)) (L.s8 ^^^ kh_lu64ec m (p + 56))) % 2 ^ 64
  let n4 := khLo (L.s4 ^^^ kh_lu64ec m (p + 24)) (L.s8 ^^^ kh_lu64ec m (p + 56))
  { s1 := n1 ^^^ n8, s2 := n2 ^^^ n5, s3 := n3 ^^^ n6, s4 := n4 ^^^ n7,
    s5 := n5, s6 := n6, s7 := n7, s8 := n8 }

/-- `KOMIHASH_HASHLOOP64`: the do-while loop consuming 64 bytes per
iteration while more than 63 bytes remain.  The `fuel` argument only bounds
the recursion; since every iteration consumes 64 bytes, any `fuel` of at
least `len / 64` is sufficient (callers pass `len`). -/
def hashLoop64 (m : Mem) : Nat → Int → Nat → Lanes → Int × Nat × Lanes
  | 0, p, len, L => (p, len, L)
  | fuel + 1, p, len, L =>
    let L2 := hashLoopIter m p L
    if len - 64 > 63 then hashLoop64 m fuel (p + 64) (len - 64) L2
    else (p + 64, len - 64, L2)

/-- Absorption of exactly `q` consecutive 64-byte blocks starting at `p`
(the block-counted view of `KOMIHASH_HASHLOOP64`). -/
def bulkAbsorb (m : Mem) : Int → Nat → Lanes → Lanes
  | _, 0, L => L
  | p, q + 1, L => bulkAbsorb m (p + 64) q (hashLoopIter m p L)

/-- `komihash_epi`: the hashing epilogue for at most 63 remaining bytes. -/
def komihash_epi (m : Mem) (Msg0 : Int) (MsgLen0 : Nat) (s1 s5 : Nat) : Nat :=
  let st1 : Int × Nat × Nat × Nat :=
    if MsgLen0 > 31 then
      let t := hash16 m Msg0 s1 s5
      let u := hash16 m (Msg0 + 16) t.1 t.2
      (Msg0 + 32, MsgLen0 - 32, u.1, u.2)
    else (Msg0, MsgLen0, s1, s5)
  let st2 : Int × Nat × Nat × Nat :=
    if st1.2.1 > 15 then
      let t := hash16 m st1.1 st1.2.2.1 st1.2.2.2
      (st1.1 + 16, st1.2.1 - 16, t.1, t.2)
    else st1
  if st2.2.1 > 7 then
    hashFin (st2.2.2.1 ^^^ kh_lu64ec m st2.1)
      (st2.2.2.2 ^^^ kh_lpu64ec_l4 m (st2.1 + 8) (st2.2.1 - 8)) st2.2.2.2
  else
    hashFin (st2.2.2.1 ^^^ kh_lpu64ec_l4 m st2.1 st2.2.1) st2.2.2.2 st2.2.2.2

/-- `komihash`: the one-shot KOMIHASH 64-bit hash function. -/
def komihash (m : Mem) (Msg0 : Int) (MsgLen : Nat) (UseSeed : Nat) : Nat :=
  let s := seedInit UseSeed
  if MsgLen < 16 then
    if MsgLen > 7 then
      hashFin (s.1 ^^^ kh_lu64ec m Msg0)
        (s.2 ^^^ kh_lpu64ec_l3 m (Msg0 + 8) (MsgLen - 8)) s.2
    else if MsgLen ≠ 0 then
      hashFin (s.1 ^^^ kh_lpu64ec_nz m Msg0 MsgLen) s.2 s.2
    else
      hashFin s.1 s.2 s.2
  else if MsgLen < 32 then
    let t := hash16 m Msg0 s.1 s.2
    if MsgLen > 23 then
      hashFin (t.1 ^^^ kh_lu64ec m (Msg0 + 16))
        (t.2 ^^^ kh_lpu64ec_l4 m (Msg0 + 24) (MsgLen - 24)) t.2
    else
      hashFin (t.1 ^^^ kh_lpu64ec_l4 m (Msg0 + 16) (MsgLen - 16)) t.2 t.2
  else if MsgLen > 63 then
    let r := hashLoop64 m MsgLen Msg0 MsgLen (deriveLanes s.1 s.2)
    komihash_epi m r.1 r.2.1
      (r.2.2.s1 ^^^ r.2.2.s2 ^^^ r.2.2.s3 ^^^ r.2.2.s4)
      (r.2.2.s5 ^^^ r.2.2.s6 ^^^ r.2.2.s7 ^^^ r.2.2.s8)
  else
    komihash_epi m Msg0 MsgLen s.1 s.2

/-- `komirand`: one step of the KOMIRAND PRNG.  Returns the updated pair
`(Seed1, Seed2)`; the returned sample is the new `Seed1`. -/
def komirand (s1 s2 : Nat) : Nat × Nat :=
  let t2 := (s2 + khHi s1 s2) % 2 ^ 64
  let t1 := khLo s1 s2
  let r2 := (t2 + 0xAAAAAAAAAAAAAAAA) % 2 ^ 64
  let r1 := t1 ^^^ r2
  (r1, r2)

/-- Memory view of a byte list: address `a ∈ [0, len)` holds the list entry,
all other addresses read as zero. -/
def memOfList (l : List Nat) : Mem :=
  fun a => if 0 ≤ a then l.getD a.toNat 0 else 0

/-!  Streamed hashing.  The context structure `komihash_stream_t` is
modelled with its byte storage as a single function on `Int` offsets:
offset `i ∈ [0, 768)` is `Buf[ i ]` and offset `i ∈ [-8, 0)` is the padding
byte `pb[ i + 8 ]` that immediately precedes `Buf` in the C struct.  -/

structure KCtx where
  buf : Int → Nat
  Seed : Fin 8 → Nat
  BufFill : Nat
  IsHashing : Nat

/-- Write of `len` bytes from `src` (starting at `srcp`) into `f` at `dst`
(the model of `memcpy` and of the byte-copy loop). -/
def writeRegion (f : Mem) (dst : Int) (src : Mem) (srcp : Int) (len : Nat) : Mem :=
  fun j => if dst ≤ j ∧ j < dst + (len : Int) then src (srcp + (j - dst)) else f j

/-- The tail of `komihash_stream_update`: store the new fill count and copy
the remaining message bytes into `Buf`. -/
def appendBytes (ctx : KCtx) (bufFill : Nat) (mm : Mem) (msg : Int) (msgLen : Nat) : KCtx :=
  { ctx with BufFill := bufFill + msgLen,
             buf := writeRegion ctx.buf (bufFill : Int) mm msg msgLen }

/-- The eight `Seed[ ]` slots viewed as lanes. -/
def lanesOfSeed (s : Fin 8 → Nat) : Lanes :=
  { s1 := s 0, s2 := s 1, s3 := s 2, s4 := s 3,
    s5 := s 4, s6 := s 5, s7 := s 6, s8 := s 7 }

/-- Lanes stored back into the `Seed[ ]` slots. -/
def seedOfLanes (L : Lanes) : Fin 8 → Nat := fun i =>
  match (i : Fin 8) with
  | 0 => L.s1
  | 1 => L.s2
  | 2 => L.s3
  | 3 => L.s4
  | 4 => L.s5
  | 5 => L.s6
  | 6 => L.s7
  | 7 => L.s8

/-- `komihash_stream_init`. -/
def komihash_stream_init (ctx : KCtx) (UseSeed : Nat) : KCtx :=
  { ctx with Seed := fun i => if i = 0 then UseSeed else ctx.Seed i,
             BufFill := 0, IsHashing := 0 }

/-- The `while( MsgLen > 127 )` loop of `komihash_stream_update`, followed by
the byte-append tail.  `mm`/`msg` is the current input view (the just-filled
buffer after a flush, the caller memory otherwise), `cm`/`swMsg`/`swMsgLen`
the pending switch input.  The loop body runs at most twice: `hashLoop64`
leaves at most 63 bytes, so after the one possible input switch (which
resets `swMsgLen` to 0) every branch exits; `fuel = 2` is therefore exact. -/
def streamWhile (fuel : Nat) (ctx : KCtx) (mm : Mem) (msg : Int) (msgLen : Nat)
    (cm : Mem) (swMsg : Int) (swMsgLen : Nat) : KCtx :=
  match fuel with
  | 0 => appendBytes ctx 0 mm msg msgLen
  | fuel + 1 =>
    if msgLen > 127 then
      let st : KCtx × Lanes :=
        if ctx.IsHashing ≠ 0 then (ctx, lanesOfSeed ctx.Seed)
        else ({ ctx with IsHashing := 1 }, initLanes (ctx.Seed 0))
      let r := hashLoop64 mm msgLen msg msgLen st.2
      let ctx2 : KCtx := { st.1 with Seed := seedOfLanes r.2.2 }
      if swMsgLen = 0 then
        if r.2.1 ≠ 0 then appendBytes ctx2 0 mm r.1 r.2.1
        else { ctx2 with BufFill := 0 }
      else streamWhile fuel ctx2 cm swMsg swMsgLen cm swMsg 0
    else appendBytes ctx 0 mm msg msgLen

/-- `komihash_stream_update`, reading the chunk from caller memory `cm` at
`Msg0`. -/
def komihash_stream_update (ctx : KCtx) (cm : Mem) (Msg0 : Int) (MsgLen : Nat) : KCtx :=
  let BufFill := ctx.BufFill
  if 768 ≤ BufFill + MsgLen ∧ BufFill ≠ 0 then
    let CopyLen := 768 - BufFill
    let ctx2 : KCtx := { ctx with buf := writeRegion ctx.buf (BufFill : Int) cm Msg0 CopyLen }
    streamWhile 2 ctx2 ctx2.buf 0 768 cm (Msg0 + (CopyLen : Int)) (MsgLen - CopyLen)
  else if BufFill = 0 then
    streamWhile 2 ctx cm Msg0 MsgLen cm 0 0
  else
    appendBytes ctx BufFill cm Msg0 MsgLen

/-- `komihash_stream_final`: returns the hash value together with the
context as left behind by the call (the only mutation the C code performs is
zeroing the padding bytes `pb[4..7]`, i.e. offsets `-4..-1`). -/
def komihash_stream_final (ctx : KCtx) : Nat × KCtx :=
  let MsgLen := ctx.BufFill
  if ctx.IsHashing = 0 then
    (komihash ctx.buf 0 MsgLen (ctx.Seed 0), ctx)
  else
    let ctx1 : KCtx := { ctx with buf := fun j => if -4 ≤ j ∧ j < 0 then 0 else ctx.buf j }
    let L := lanesOfSeed ctx1.Seed
    let r := if MsgLen > 63 then hashLoop64 ctx1.buf MsgLen 0 MsgLen L else (0, MsgLen, L)
    (komihash_epi ctx1.buf r.1 r.2.1
      (r.2.2.s1 ^^^ r.2.2.s2 ^^^ r.2.2.s3 ^^^ r.2.2.s4)
      (r.2.2.s5 ^^^ r.2.2.s6 ^^^ r.2.2.s7 ^^^ r.2.2.s8), ctx1)

/-- `komihash_stream_oneshot`; `c0` stands for the uninitialized stack
context the C code declares locally. -/
def komihash_stream_oneshot (cm : Mem) (Msg : Int) (MsgLen : Nat) (UseSeed : Nat)
    (c0 : KCtx) : Nat :=
  (komihash_stream_final
    (komihash_stream_update (komihash_stream_init c0 UseSeed) cm Msg MsgLen)).1

/-- Feeding one chunk, given as a byte list, to the stream. -/
def feed (c : KCtx) (chunk : List Nat) : KCtx :=
  komihash_stream_update c (memOfList chunk) 0 chunk.length

/-- Feeding a list of chunks in order. -/
def feedAll (c : KCtx) (chunks : List (List Nat)) : KCtx :=
  chunks.foldl feed c

/-- The list of the first `n` outputs of `komirand` started from `(s1, s2)`. -/
def komirandOutputs (s1 s2 : Nat) : Nat → List Nat
  | 0 => []
  | n + 1 =>
    let r := komirand s1 s2
    r.1 :: komirandOutputs r.1 r.2 n

/-- The value of `komihash` on the empty message, written out exactly as
claim C5 describes it: seed halves masked into `S1`/`S5`, one `HASHROUND`,
then `HASHFIN` of the resulting pair. -/
def komihashZeroSpec (seed : Nat) : Nat :=
  let S1 := 0x243F6A8885A308D3 ^^^ (seed &&& 0x5555555555555555)
  let S5 := 0x452821E638D01377 ^^^ (seed &&& 0xAAAAAAAAAAAAAAAA)
  let S5n := (S5 + khHi S1 S5) % 2 ^ 64
  let S1n := khLo S1 S5 ^^^ S5n
  hashFin S1n S5n S5n

/-- ASCII bytes of `"The cat is out of the bag"`. -/
def msgCat : List Nat :=
  [84, 104, 101, 32, 99, 97, 116, 32, 105, 115, 32, 111, 117, 116, 32, 111,
   102, 32, 116, 104, 101, 32, 98, 97, 103]

/-- ASCII bytes of `"7 chars"`. -/
def msgChars : List Nat := [55, 32, 99, 104, 97, 114, 115]

/-- Claim C8: starting from state `(0, 0)`, eight successive `komirand`
calls return exactly the published vector of eight 64-bit values. -/
theorem claim_C8 :
    komirandOutputs 0 0 8 =
      [0xaaaaaaaaaaaaaaaa, 0xfffffffffffffffe, 0x4924924924924910,
       0xbaebaebaebaeba00, 0x400c62cc4727496b, 0x35a969173e8f925b,
       0xdb47f6bae9a247ad, 0x98e0f6cece6711fe] := by
  rfl

/-- Claim C5: on a zero-length message, `komihash` never reads memory — the
result is a function of the seed alone, namely one seed-initialization
`HASHROUND` followed by `HASHFIN` of the resulting pair. -/
theorem claim_C5 (m : Mem) (p : Int) (seed : Nat) :
    komihash m p 0 seed = komihashZeroSpec seed := by
  rfl

/-- Claim C2: the end-to-end test vectors with seed 0 for the 25-byte
message `"The cat is out of the bag"`, the 7-byte message `"7 chars"`, and
the 256-byte message `00 01 .. FF`. -/
theorem claim_C2 :
    komihash (memOfList msgCat) 0 25 0 = 0xd15723521d3c37b1 ∧
    komihash (memOfList msgChars) 0 7 0 = 0x2c514f6e5dcb11cb ∧
    komihash (memOfList (List.range 256)) 0 256 0 = 0x94c3dbdca59ddf57 := by
  refine ⟨by rfl, by rfl, by rfl⟩

/-- Bound for a product of two 32-bit values. -/
theorem mul_le_u32_bound (x y : Nat) (hx : x < 2 ^ 32) (hy : y < 2 ^ 32) :
    x * y ≤ (2 ^ 32 - 1) * (2 ^ 32 - 1) :=
  Nat.mul_le_mul (by omega) (by omega)

/-- The hi-half identity behind the 32-bit `kh_m128` fallback. -/
theorem kh_m128_32_eq_u128 (u v a : Nat) (hu : u < 2 ^ 64) (hv : v < 2 ^ 64) :
    kh_m128_32 u v a = kh_m128_u128 u v a := by
  unfold kh_m128_32 kh_m128_u128
  have expand : u * v =
      2 ^ 64 * (u / 2 ^ 32 * (v / 2 ^ 32)) + 2 ^ 32 * (u / 2 ^ 32 * (v % 2 ^ 32)) +
      2 ^ 32 * (u % 2 ^ 32 * (v / 2 ^ 32)) + u % 2 ^ 32 * (v % 2 ^ 32) := by
    conv_lhs => rw [← Nat.div_add_mod u (2 ^ 32), ← Nat.div_add_mod v (2 ^ 32)]
    ring
  have hA : u / 2 ^ 32 * (v / 2 ^ 32) ≤ (2 ^ 32 - 1) * (2 ^ 32 - 1) :=
    mul_le_u32_bound _ _ (by omega) (by omega)
  have hB : u / 2 ^ 32 * (v % 2 ^ 32) ≤ (2 ^ 32 - 1) * (2 ^ 32 - 1) :=
    mul_le_u32_bound _ _ (by omega) (by omega)
  have hC : u % 2 ^ 32 * (v / 2 ^ 32) ≤ (2 ^ 32 - 1) * (2 ^ 32 - 1) :=
    mul_le_u32_bound _ _ (by omega) (by omega)
  have hD : u % 2 ^ 32 * (v % 2 ^ 32) ≤ (2 ^ 32 - 1) * (2 ^ 32 - 1) :=
    mul_le_u32_bound _ _ (by omega) (by omega)
  have e1 : u / 2 ^ 32 % 2 ^ 32 = u / 2 ^ 32 := Nat.mod_eq_of_lt (by omega)
  have e2 : v / 2 ^ 32 % 2 ^ 32 = v / 2 ^ 32 := Nat.mod_eq_of_lt (by omega)
  simp only [Prod.mk.injEq, e1, e2]
  refine ⟨trivial, ?_⟩
  generalize hP : u * v = P at *
  generalize u / 2 ^ 32 * (v / 2 ^ 32) = A at *
  generalize u / 2 ^ 32 * (v % 2 ^ 32) = B at *
  generalize u % 2 ^ 32 * (v / 2 ^ 32) = C at *
  generalize u % 2 ^ 32 * (v % 2 ^ 32) = D at *
  omega

/-- Claim C3: for all 64-bit `u`, `v` and any accumulator value `a`, the
32-bit fallback `kh_m128` computes exactly the `(lo, hi_accum)` pair of the
`unsigned __int128` implementation: the low word is `u * v mod 2^64` and the
accumulator becomes `(a + floor(u * v / 2^64)) mod 2^64`. -/
theorem claim_C3 (u v a : Nat) (hu : u < 2 ^ 64) (hv : v < 2 ^ 64) :
    kh_m128_32 u v a = kh_m128_u128 u v a ∧
    (kh_m128_32 u v a).1 = u * v % 2 ^ 64 ∧
    (kh_m128_32 u v a).2 = (a + u * v / 2 ^ 64) % 2 ^ 64 := by
  refine ⟨kh_m128_32_eq_u128 u v a hu hv, rfl, ?_⟩
  rw [kh_m128_32_eq_u128 u v a hu hv]
  rfl

/-- Witness for claim C3 at a concrete input. -/
theorem claim_C3_witness :
    kh_m128_32 0xDEADBEEF12345678 0x0123456789ABCDEF 5 =
      kh_m128_u128 0xDEADBEEF12345678 0x0123456789ABCDEF 5 ∧
    (kh_m128_32 0xDEADBEEF12345678 0x0123456789ABCDEF 5).1 =
      0xDEADBEEF12345678 * 0x0123456789ABCDEF % 2 ^ 64 ∧
    (kh_m128_32 0xDEADBEEF12345678 0x0123456789ABCDEF 5).2 =
      (5 + 0xDEADBEEF12345678 * 0x0123456789ABCDEF / 2 ^ 64) % 2 ^ 64 :=
  claim_C3 0xDEADBEEF12345678 0x0123456789ABCDEF 5 (by decide) (by decide)

/-!  Padded tail loaders: canonical value.  `leVal m p n` is the
little-endian value of the `n` bytes at `p`; each loader returns the
final-byte mark `2 ^ (8 n)` OR-ed onto it. -/

/-- Little-endian value of the `n` bytes at address `p`. -/
def leVal (m : Mem) (p : Int) : Nat → Nat
  | 0 => 0
  | n + 1 => leVal m p n + khB m (p + (n : Int)) * 2 ^ (8 * n)

/-- A value below `2 ^ k` OR-ed with a multiple of `2 ^ k` is their sum. -/
theorem lor_mul_pow_eq_add (k : Nat) : ∀ x y : Nat, x < 2 ^ k → x ||| y * 2 ^ k = x + y * 2 ^ k := by
  induction k with
  | zero =>
    intro x y hx
    interval_cases x
    simp
  | succ k ih =>
    intro x y hx
    have hb : Nat.bit x.bodd x.div2 = x := Nat.bit_decomp x
    have hy : y * 2 ^ (k + 1) = Nat.bit false (y * 2 ^ k) := by
      simp [Nat.bit]
      ring
    have h2 : (2 : Nat) ^ (k + 1) = 2 * 2 ^ k := by ring
    have hv := Nat.div2_val x
    have hd : x.div2 < 2 ^ k := by omega
    rw [← hb, hy, Nat.lor_bit]
    simp only [Bool.or_false]
    rw [ih x.div2 y hd]
    cases hbo : x.bodd <;> simp [Nat.bit] <;> omega

/-- Instance of `lor_mul_pow_eq_add` at `k = 8`. -/
theorem lor256 (x y : Nat) (hx : x < 256) : x ||| y * 256 = x + y * 256 :=
  lor_mul_pow_eq_add 8 x y hx

/-- Instance of `lor_mul_pow_eq_add` at `k = 16`. -/
theorem lor65536 (x y : Nat) (hx : x < 65536) : x ||| y * 65536 = x + y * 65536 :=
  lor_mul_pow_eq_add 16 x y hx

/-- Instance of `lor_mul_pow_eq_add` at `k = 32`. -/
theorem lor4294967296 (x y : Nat) (hx : x < 4294967296) :
    x ||| y * 4294967296 = x + y * 4294967296 :=
  lor_mul_pow_eq_add 32 x y hx

/-- OR-ing with a vanishing quotient is the identity. -/
theorem lor_div_zero (a x c : Nat) (hx : x < c) : a ||| x / c = a := by
  rw [Nat.div_eq_of_lt hx]
  simp

/-- `kh_lpu64ec_l3` returns the final-byte mark OR-ed with the value of the
`n` remaining bytes; the three bytes before `p` it may read do not matter. -/
theorem kh_lpu64ec_l3_eq (m : Mem) (p : Int) (n : Nat) (hn : n ≤ 7) :
    kh_lpu64ec_l3 m p n = 2 ^ (8 * n) ||| leVal m p n := by
  interval_cases n
  · simp only [kh_lpu64ec_l3, kh_lu32ec, kh_lu64ec, leVal, khB, Nat.shiftLeft_eq, Nat.shiftRight_eq_div_pow]
    norm_num
    rw [lor256, lor65536, lor_div_zero]
    all_goals omega
  · simp only [kh_lpu64ec_l3, kh_lu32ec, kh_lu64ec, leVal, khB, Nat.shiftLeft_eq, Nat.shiftRight_eq_div_pow]
    norm_num
    rw [show p + (1:Int) - 3 + 2 = p by ring]
    rw [lor256, lor65536]
    refine congrArg (fun z : Nat => 256 ||| z) ?_
    all_goals omega
  · simp only [kh_lpu64ec_l3, kh_lu32ec, kh_lu64ec, leVal, khB, Nat.shiftLeft_eq, Nat.shiftRight_eq_div_pow]
    norm_num
    rw [show p + (2:Int) - 3 + 1 = p by ring, show p + (2:Int) - 3 + 2 = p + 1 by ring]
    rw [lor256, lor65536]
    refine congrArg (fun z : Nat => 65536 ||| z) ?_
    all_goals omega
  · simp only [kh_lpu64ec_l3, kh_lu32ec, kh_lu64ec, leVal, khB, Nat.shiftLeft_eq, Nat.shiftRight_eq_div_pow]
    norm_num
    rw [lor256, lor65536]
    all_goals omega
  · simp only [kh_lpu64ec_l3, kh_lu32ec, kh_lu64ec, leVal, khB, Nat.shiftLeft_eq, Nat.shiftRight_eq_div_pow]
    norm_num
    rw [Nat.lor_assoc, lor4294967296]
    refine congrArg (fun z : Nat => 4294967296 ||| z) ?_
    all_goals omega
  · simp only [kh_lpu64ec_l3, kh_lu32ec, kh_lu64ec, leVal, khB, Nat.shiftLeft_eq, Nat.shiftRight_eq_div_pow]
    norm_num
    rw [show p + (5:Int) - 4 = p + 1 by ring, show p + (1:Int) + 1 = p + 2 by ring, show p + (1:Int) + 2 = p + 3 by ring, show p + (1:Int) + 3 = p + 4 by ring]
    rw [Nat.lor_assoc, lor4294967296]
    refine congrArg (fun z : Nat => 1099511627776 ||| z) ?_
    all_goals omega
  · simp only [kh_lpu64ec_l3, kh_lu32ec, kh_lu64ec, leVal, khB, Nat.shiftLeft_eq, Nat.shiftRight_eq_div_pow]
    norm_num
    rw [show p + (6:Int) - 4 = p + 2 by ring, show p + (2:Int) + 1 = p + 3 by ring, show p + (2:Int) + 2 = p + 4 by ring, show p + (2:Int) + 3 = p + 5 by ring]
    rw [Nat.lor_assoc, lor4294967296]
    refine congrArg (fun z : Nat => 281474976710656 ||| z) ?_
    all_goals omega
  · simp only [kh_lpu64ec_l3, kh_lu32ec, kh_lu64ec, leVal, khB, Nat.shiftLeft_eq, Nat.shiftRight_eq_div_pow]
    norm_num
    rw [show p + (7:Int) - 4 = p + 3 by ring, show p + (3:Int) + 1 = p + 4 by ring, show p + (3:Int) + 2 = p + 5 by ring, show p + (3:Int) + 3 = p + 6 by ring]
    rw [Nat.lor_assoc, lor4294967296]
    refine congrArg (fun z : Nat => 72057594037927936 ||| z) ?_
    all_goals omega

/-- `kh_lpu64ec_nz` returns the final-byte mark OR-ed with the value of the
`n` remaining bytes (`n` must be non-zero). -/
theorem kh_lpu64ec_nz_eq (m : Mem) (p : Int) (n : Nat) (h1 : 1 ≤ n) (hn : n ≤ 7) :
    kh_lpu64ec_nz m p n = 2 ^ (8 * n) ||| leVal m p n := by
  interval_cases n
  · simp only [kh_lpu64ec_nz, kh_lu32ec, kh_lu64ec, leVal, khB, Nat.shiftLeft_eq, Nat.shiftRight_eq_div_pow]
    norm_num
  · simp only [kh_lpu64ec_nz, kh_lu32ec, kh_lu64ec, leVal, khB, Nat.shiftLeft_eq, Nat.shiftRight_eq_div_pow]
    norm_num
    rw [lor256]
    all_goals omega
  · simp only [kh_lpu64ec_nz, kh_lu32ec, kh_lu64ec, leVal, khB, Nat.shiftLeft_eq, Nat.shiftRight_eq_div_pow]
    norm_num
    rw [lor256, lor65536]
    all_goals omega
  · simp only [kh_lpu64ec_nz, kh_lu32ec, kh_lu64ec, leVal, khB, Nat.shiftLeft_eq, Nat.shiftRight_eq_div_pow]
    norm_num
    rw [Nat.lor_assoc, lor4294967296]
    refine congrArg (fun z : Nat => 4294967296 ||| z) ?_
    all_goals omega
  · simp only [kh_lpu64ec_nz, kh_lu32ec, kh_lu64ec, leVal, khB, Nat.shiftLeft_eq, Nat.shiftRight_eq_div_pow]
    norm_num
    rw [show p + (5:Int) - 4 = p + 1 by ring, show p + (1:Int) + 1 = p + 2 by ring, show p + (1:Int) + 2 = p + 3 by ring, show p + (1:Int) + 3 = p + 4 by ring]
    rw [Nat.lor_assoc, lor4294967296]
    refine congrArg (fun z : Nat => 1099511627776 ||| z) ?_
    all_goals omega
  · simp only [kh_lpu64ec_nz, kh_lu32ec, kh_lu64ec, leVal, khB, Nat.shiftLeft_eq, Nat.shiftRight_eq_div_pow]
    norm_num
    rw [show p + (6:Int) - 4 = p + 2 by ring, show p + (2:Int) + 1 = p + 3 by ring, show p + (2:Int) + 2 = p + 4 by ring, show p + (2:Int) + 3 = p + 5 by ring]
    rw [Nat.lor_assoc, lor4294967296]
    refine congrArg (fun z : Nat => 281474976710656 ||| z) ?_
    all_goals omega
  · simp only [kh_lpu64ec_nz, kh_lu32ec, kh_lu64ec, leVal, khB, Nat.shiftLeft_eq, Nat.shiftRight_eq_div_pow]
    norm_num
    rw [show p + (7:Int) - 4 = p + 3 by ring, show p + (3:Int) + 1 = p + 4 by ring, show p + (3:Int) + 2 = p + 5 by ring, show p + (3:Int) + 3 = p + 6 by ring]
    rw [Nat.lor_assoc, lor4294967296]
    refine congrArg (fun z : Nat => 72057594037927936 ||| z) ?_
    all_goals omega

/-- `kh_lpu64ec_l4` returns the final-byte mark OR-ed with the value of the
`n` remaining bytes; the four bytes before `p` it may read do not matter. -/
theorem kh_lpu64ec_l4_eq (m : Mem) (p : Int) (n : Nat) (hn : n ≤ 7) :
    kh_lpu64ec_l4 m p n = 2 ^ (8 * n) ||| leVal m p n := by
  interval_cases n
  · simp only [kh_lpu64ec_l4, kh_lu32ec, kh_lu64ec, leVal, khB, Nat.shiftLeft_eq, Nat.shiftRight_eq_div_pow]
    norm_num
    rw [lor_div_zero]
    all_goals omega
  · simp only [kh_lpu64ec_l4, kh_lu32ec, kh_lu64ec, leVal, khB, Nat.shiftLeft_eq, Nat.shiftRight_eq_div_pow]
    norm_num
    rw [show p + (1:Int) - 4 + 3 = p by ring]
    refine congrArg (fun z : Nat => 256 ||| z) ?_
    all_goals omega
  · simp only [kh_lpu64ec_l4, kh_lu32ec, kh_lu64ec, leVal, khB, Nat.shiftLeft_eq, Nat.shiftRight_eq_div_pow]
    norm_num
    rw [show p + (2:Int) - 4 + 2 = p by ring, show p + (2:Int) - 4 + 3 = p + 1 by ring]
    refine congrArg (fun z : Nat => 65536 ||| z) ?_
    all_goals omega
  · simp only [kh_lpu64ec_l4, kh_lu32ec, kh_lu64ec, leVal, khB, Nat.shiftLeft_eq, Nat.shiftRight_eq_div_pow]
    norm_num
    rw [show p + (3:Int) - 4 + 1 = p by ring, show p + (3:Int) - 4 + 2 = p + 1 by ring, show p + (3:Int) - 4 + 3 = p + 2 by ring]
    refine congrArg (fun z : Nat => 16777216 ||| z) ?_
    all_goals omega
  · simp only [kh_lpu64ec_l4, kh_lu32ec, kh_lu64ec, leVal, khB, Nat.shiftLeft_eq, Nat.shiftRight_eq_div_pow]
    norm_num
  · simp only [kh_lpu64ec_l4, kh_lu32ec, kh_lu64ec, leVal, khB, Nat.shiftLeft_eq, Nat.shiftRight_eq_div_pow]
    norm_num
    rw [show p + (5:Int) - 8 + 3 = p by ring, show p + (5:Int) - 8 + 4 = p + 1 by ring, show p + (5:Int) - 8 + 5 = p + 2 by ring, show p + (5:Int) - 8 + 6 = p + 3 by ring, show p + (5:Int) - 8 + 7 = p + 4 by ring]
    refine congrArg (fun z : Nat => 1099511627776 ||| z) ?_
    all_goals omega
  · simp only [kh_lpu64ec_l4, kh_lu32ec, kh_lu64ec, leVal, khB, Nat.shiftLeft_eq, Nat.shiftRight_eq_div_pow]
    norm_num
    rw [show p + (6:Int) - 8 + 2 = p by ring, show p + (6:Int) - 8 + 3 = p + 1 by ring, show p + (6:Int) - 8 + 4 = p + 2 by ring, show p + (6:Int) - 8 + 5 = p + 3 by ring, show p + (6:Int) - 8 + 6 = p + 4 by ring, show p + (6:Int) - 8 + 7 = p + 5 by ring]
    refine congrArg (fun z : Nat => 281474976710656 ||| z) ?_
    all_goals omega
  · simp only [kh_lpu64ec_l4, kh_lu32ec, kh_lu64ec, leVal, khB, Nat.shiftLeft_eq, Nat.shiftRight_eq_div_pow]
    norm_num
    rw [show p + (7:Int) - 8 + 1 = p by ring, show p + (7:Int) - 8 + 2 = p + 1 by ring, show p + (7:Int) - 8 + 3 = p + 2 by ring, show p + (7:Int) - 8 + 4 = p + 3 by ring, show p + (7:Int) - 8 + 5 = p + 4 by ring, show p + (7:Int) - 8 + 6 = p + 5 by ring, show p + (7:Int) - 8 + 7 = p + 6 by ring]
    refine congrArg (fun z : Nat => 72057594037927936 ||| z) ?_
    all_goals omega

/-- `leVal` only depends on the `n` bytes at `p`. -/
theorem leVal_congr (m mm : Mem) (p pp : Int) (n : Nat)
    (h : ∀ i : Nat, i < n → khB m (p + (i : Int)) = khB mm (pp + (i : Int))) :
    leVal m p n = leVal mm pp n := by
  induction n with
  | zero => rfl
  | succ k ih =>
    simp only [leVal]
    rw [ih (fun i hi => h i (by omega)), h k (by omega)]

/-- Claim C4: each padded tail loader returns `(1 <<< (8 n))` OR-ed with the
little-endian value of the `n` remaining bytes (`kh_lpu64ec_l3` and
`kh_lpu64ec_l4` for `n ∈ [0,7]`, returning exactly 1 at `n = 0`, and
`kh_lpu64ec_nz` for `n ∈ [1,7]`); hence for a common `n ∈ [1,7]` all three
loaders agree, and the bytes preceding `Msg` that `kh_lpu64ec_l3` and
`kh_lpu64ec_l4` may read never affect the returned value (the last conjunct
lets those loaders run in a different memory that agrees only on the `n`
message bytes). -/
theorem claim_C4 (m mm : Mem) (p pp : Int) (n : Nat) :
    (n ≤ 7 →
      kh_lpu64ec_l3 m p n = 2 ^ (8 * n) ||| leVal m p n ∧
      kh_lpu64ec_l4 m p n = 2 ^ (8 * n) ||| leVal m p n) ∧
    (1 ≤ n → n ≤ 7 → kh_lpu64ec_nz m p n = 2 ^ (8 * n) ||| leVal m p n) ∧
    (kh_lpu64ec_l3 m p 0 = 1 ∧ kh_lpu64ec_l4 m p 0 = 1) ∧
    (1 ≤ n → n ≤ 7 →
      (∀ i : Nat, i < n → khB m (p + (i : Int)) = khB mm (pp + (i : Int))) →
      kh_lpu64ec_l3 m p n = kh_lpu64ec_nz mm pp n ∧
      kh_lpu64ec_l4 m p n = kh_lpu64ec_nz mm pp n) := by
  refine ⟨fun hn => ⟨kh_lpu64ec_l3_eq m p n hn, kh_lpu64ec_l4_eq m p n hn⟩,
    fun h1 hn => kh_lpu64ec_nz_eq m p n h1 hn, ⟨?_, ?_⟩, fun h1 hn hb => ?_⟩
  · rw [kh_lpu64ec_l3_eq m p 0 (by omega)]
    simp [leVal]
  · rw [kh_lpu64ec_l4_eq m p 0 (by omega)]
    simp [leVal]
  · rw [kh_lpu64ec_l3_eq m p n (by omega), kh_lpu64ec_l4_eq m p n (by omega),
      kh_lpu64ec_nz_eq mm pp n h1 hn, leVal_congr m mm p pp n hb]
    exact ⟨rfl, rfl⟩

/-- Witness for claim C4 at `n = 3` with two concrete memories. -/
theorem claim_C4_witness :
    kh_lpu64ec_l3 (fun a => a.toNat + 2) 9 3 =
      2 ^ (8 * 3) ||| leVal (fun a => a.toNat + 2) 9 3 ∧
    kh_lpu64ec_l4 (fun a => a.toNat + 2) 9 3 =
      2 ^ (8 * 3) ||| leVal (fun a => a.toNat + 2) 9 3 ∧
    kh_lpu64ec_nz (fun a => a.toNat + 2) 9 3 =
      2 ^ (8 * 3) ||| leVal (fun a => a.toNat + 2) 9 3 ∧
    kh_lpu64ec_l3 (fun a => a.toNat + 2) 9 3 = kh_lpu64ec_nz (fun a => a.toNat + 6) 5 3 := by
  have h := claim_C4 (fun a => a.toNat + 2) (fun a => a.toNat + 6) 9 5 3
  exact ⟨(h.1 (by decide)).1, (h.1 (by decide)).2, h.2.1 (by decide) (by decide),
    (h.2.2.2 (by decide) (by decide) (by decide)).1⟩

/-!  Infrastructure for the streaming equivalence proof. -/

/-- Byte agreement of two memory views over a window of `n` bytes. -/
def agreeB (m : Mem) (p : Int) (mm : Mem) (pp : Int) (n : Nat) : Prop :=
  ∀ i : Nat, i < n → khB m (p + (i : Int)) = khB mm (pp + (i : Int))

/-- Agreement restricts to a shifted sub-window. -/
theorem agreeB_shift (m : Mem) (p : Int) (mm : Mem) (pp : Int) (n k j : Nat)
    (h : agreeB m p mm pp n) (hkj : k + j ≤ n) :
    agreeB m (p + (k : Int)) mm (pp + (k : Int)) j := by
  intro i hi
  have hx := h (k + i) (by omega)
  have e1 : p + ((k + i : Nat) : Int) = p + (k : Int) + (i : Int) := by
    push_cast
    ring
  have e2 : pp + ((k + i : Nat) : Int) = pp + (k : Int) + (i : Int) := by
    push_cast
    ring
  rw [e1, e2] at hx
  exact hx

/-- `kh_lu64ec` only depends on the eight bytes at `p`. -/
theorem kh_lu64ec_congr (m : Mem) (p : Int) (mm : Mem) (pp : Int)
    (h : agreeB m p mm pp 8) : kh_lu64ec m p = kh_lu64ec mm pp := by
  have h0 := h 0 (by omega)
  have h1 := h 1 (by omega)
  have h2 := h 2 (by omega)
  have h3 := h 3 (by omega)
  have h4 := h 4 (by omega)
  have h5 := h 5 (by omega)
  have h6 := h 6 (by omega)
  have h7 := h 7 (by omega)
  push_cast at h0 h1 h2 h3 h4 h5 h6 h7
  simp only [add_zero] at h0
  simp only [kh_lu64ec]
  rw [h0, h1, h2, h3, h4, h5, h6, h7]

/-- `hash16` only depends on the sixteen bytes at `p`. -/
theorem hash16_congr (m : Mem) (p : Int) (mm : Mem) (pp : Int) (s1 s5 : Nat)
    (h : agreeB m p mm pp 16) : hash16 m p s1 s5 = hash16 mm pp s1 s5 := by
  simp only [hash16]
  rw [kh_lu64ec_congr m p mm pp (fun i hi => h i (by omega)),
    kh_lu64ec_congr m (p + 8) mm (pp + 8) ?_]
  have hs := agreeB_shift m p mm pp 16 8 8 h (by omega)
  exact hs

/-- `kh_lpu64ec_l4` only depends on the `n` in-range bytes. -/
theorem kh_lpu64ec_l4_congr (m : Mem) (p : Int) (mm : Mem) (pp : Int) (n : Nat)
    (hn : n ≤ 7) (h : agreeB m p mm pp n) :
    kh_lpu64ec_l4 m p n = kh_lpu64ec_l4 mm pp n := by
  rw [kh_lpu64ec_l4_eq m p n hn, kh_lpu64ec_l4_eq mm pp n hn,
    leVal_congr m mm p pp n h]

/-- `kh_lpu64ec_l3` only depends on the `n` in-range bytes. -/
theorem kh_lpu64ec_l3_congr (m : Mem) (p : Int) (mm : Mem) (pp : Int) (n : Nat)
    (hn : n ≤ 7) (h : agreeB m p mm pp n) :
    kh_lpu64ec_l3 m p n = kh_lpu64ec_l3 mm pp n := by
  rw [kh_lpu64ec_l3_eq m p n hn, kh_lpu64ec_l3_eq mm pp n hn,
    leVal_congr m mm p pp n h]

/-- `kh_lpu64ec_nz` only depends on the `n` in-range bytes. -/
theorem kh_lpu64ec_nz_congr (m : Mem) (p : Int) (mm : Mem) (pp : Int) (n : Nat)
    (h1 : 1 ≤ n) (hn : n ≤ 7) (h : agreeB m p mm pp n) :
    kh_lpu64ec_nz m p n = kh_lpu64ec_nz mm pp n := by
  rw [kh_lpu64ec_nz_eq m p n h1 hn, kh_lpu64ec_nz_eq mm pp n h1 hn,
    leVal_congr m mm p pp n h]

/-- `hashLoopIter` only depends on the 64 bytes at `p`. -/
theorem hashLoopIter_congr (m : Mem) (p : Int) (mm : Mem) (pp : Int) (L : Lanes)
    (h : agreeB m p mm pp 64) : hashLoopIter m p L = hashLoopIter mm pp L := by
  have w0 := kh_lu64ec_congr m p mm pp (fun i hi => h i (by omega))
  have w8 := kh_lu64ec_congr m (p + 8) mm (pp + 8) (agreeB_shift m p mm pp 64 8 8 h (by omega))
  have w16 := kh_lu64ec_congr m (p + 16) mm (pp + 16) (agreeB_shift m p mm pp 64 16 8 h (by omega))
  have w24 := kh_lu64ec_congr m (p + 24) mm (pp + 24) (agreeB_shift m p mm pp 64 24 8 h (by omega))
  have w32 := kh_lu64ec_congr m (p + 32) mm (pp + 32) (agreeB_shift m p mm pp 64 32 8 h (by omega))
  have w40 := kh_lu64ec_congr m (p + 40) mm (pp + 40) (agreeB_shift m p mm pp 64 40 8 h (by omega))
  have w48 := kh_lu64ec_congr m (p + 48) mm (pp + 48) (agreeB_shift m p mm pp 64 48 8 h (by omega))
  have w56 := kh_lu64ec_congr m (p + 56) mm (pp + 56) (agreeB_shift m p mm pp 64 56 8 h (by omega))
  simp only [hashLoopIter]
  rw [w0, w8, w16, w24, w32, w40, w48, w56]

/-- `bulkAbsorb` only depends on the `64 q` bytes at `p`. -/
theorem bulkAbsorb_congr (m : Mem) (mm : Mem) (q : Nat) :
    ∀ (p pp : Int) (L : Lanes), agreeB m p mm pp (64 * q) →
    bulkAbsorb m p q L = bulkAbsorb mm pp q L := by
  induction q with
  | zero => intro p pp L _; rfl
  | succ k ih =>
    intro p pp L h
    simp only [bulkAbsorb]
    rw [hashLoopIter_congr m p mm pp L (fun i hi => h i (by omega))]
    exact ih (p + 64) (pp + 64) _ (by
      have hs := agreeB_shift m p mm pp (64 * (k + 1)) 64 (64 * k) h (by omega)
      push_cast at hs
      exact hs)

/-- Composition of block absorption. -/
theorem bulkAbsorb_add (m : Mem) (q1 q2 : Nat) :
    ∀ (p : Int) (L : Lanes),
    bulkAbsorb m p (q1 + q2) L =
      bulkAbsorb m (p + 64 * (q1 : Int)) q2 (bulkAbsorb m p q1 L) := by
  induction q1 with
  | zero =>
    intro p L
    norm_num [bulkAbsorb]
  | succ k ih =>
    intro p L
    have e : k + 1 + q2 = (k + q2) + 1 := by omega
    rw [e]
    simp only [bulkAbsorb]
    rw [ih (p + 64) (hashLoopIter m p L)]
    have e2 : p + 64 + 64 * (k : Int) = p + 64 * ((k : Int) + 1) := by ring
    rw [e2]
    norm_num

/-- `hashLoop64` absorbs exactly `len / 64` blocks and stops with `len % 64`
bytes left, whenever it enters with more than 63 bytes and enough fuel. -/
theorem hashLoop64_spec (m : Mem) (q : Nat) :
    ∀ (fuel : Nat) (p : Int) (r : Nat) (L : Lanes), 1 ≤ q → r ≤ 63 → q ≤ fuel →
    hashLoop64 m fuel p (64 * q + r) L = (p + 64 * (q : Int), r, bulkAbsorb m p q L) := by
  induction q with
  | zero => omega
  | succ k ih =>
    intro fuel p r L _ hr hf
    match fuel, hf with
    | f + 1, hf =>
      simp only [hashLoop64]
      have hlen : 64 * (k + 1) + r - 64 = 64 * k + r := by omega
      rw [hlen]
      by_cases hk : k = 0
      · subst hk
        rw [if_neg (by omega : ¬ (64 * 0 + r > 63))]
        have e1 : 64 * 0 + r = r := by omega
        have e2 : p + 64 = p + 64 * ((0 + 1 : Nat) : Int) := by
          push_cast
          ring
        rw [e1, e2]
        rfl
      · rw [if_pos (by omega : 64 * k + r > 63)]
        rw [ih f (p + 64) r (hashLoopIter m p L) (by omega) hr (by omega)]
        have e : p + 64 + 64 * (k : Int) = p + 64 * (((k + 1 : Nat) : Int)) := by
          push_cast
          ring
        rw [e]
        rfl

/-- `komihash_epi` only depends on the `n ≤ 63` remaining bytes (the up to
four bytes before `p` that its tail loader may touch never matter). -/
theorem komihash_epi_congr (m : Mem) (p : Int) (mm : Mem) (pp : Int) (n s1 s5 : Nat)
    (hn : n ≤ 63) (h : agreeB m p mm pp n) :
    komihash_epi m p n s1 s5 = komihash_epi mm pp n s1 s5 := by
  simp only [komihash_epi]
  by_cases h31 : n > 31
  · have a0 : agreeB m p mm pp 16 := fun i hi => h i (by omega)
    have a16 := agreeB_shift m p mm pp n 16 16 h (by omega)
    push_cast at a16
    simp only [if_pos h31]
    try dsimp only
    rw [hash16_congr m p mm pp s1 s5 a0, hash16_congr m (p + 16) mm (pp + 16) _ _ a16]
    by_cases h15 : n - 32 > 15
    · have a32 := agreeB_shift m p mm pp n 32 16 h (by omega)
      push_cast at a32
      simp only [if_pos h15]
      try dsimp only
      rw [hash16_congr m (p + 32) mm (pp + 32) _ _ a32]
      by_cases h7 : n - 32 - 16 > 7
      · have a48 := agreeB_shift m p mm pp n 48 8 h (by omega)
        push_cast at a48
        have a56 := agreeB_shift m p mm pp n 56 (n - 56) h (by omega)
        push_cast at a56
        simp only [if_pos h7]
        try dsimp only
        rw [show p + 32 + 16 = p + 48 by ring, show pp + 32 + 16 = pp + 48 by ring]
        rw [show p + 48 + 8 = p + 56 by ring, show pp + 48 + 8 = pp + 56 by ring,
          show n - 32 - 16 - 8 = n - 56 by omega,
          kh_lu64ec_congr m (p + 48) mm (pp + 48) a48,
          kh_lpu64ec_l4_congr m (p + 56) mm (pp + 56) (n - 56) (by omega) a56]
      · have a48 := agreeB_shift m p mm pp n 48 (n - 48) h (by omega)
        push_cast at a48
        simp only [if_neg h7]
        try dsimp only
        rw [show p + 32 + 16 = p + 48 by ring, show pp + 32 + 16 = pp + 48 by ring,
          show n - 32 - 16 = n - 48 by omega,
          kh_lpu64ec_l4_congr m (p + 48) mm (pp + 48) (n - 48) (by omega) a48]
    · simp only [if_neg h15]
      try dsimp only
      by_cases h7 : n - 32 > 7
      · have a32 := agreeB_shift m p mm pp n 32 8 h (by omega)
        push_cast at a32
        have a40 := agreeB_shift m p mm pp n 40 (n - 40) h (by omega)
        push_cast at a40
        simp only [if_pos h7]
        try dsimp only
        rw [kh_lu64ec_congr m (p + 32) mm (pp + 32) a32,
          show p + 32 + 8 = p + 40 by ring, show pp + 32 + 8 = pp + 40 by ring,
          show n - 32 - 8 = n - 40 by omega,
          kh_lpu64ec_l4_congr m (p + 40) mm (pp + 40) (n - 40) (by omega) a40]
      · have a32 := agreeB_shift m p mm pp n 32 (n - 32) h (by omega)
        push_cast at a32
        simp only [if_neg h7]
        try dsimp only
        rw [kh_lpu64ec_l4_congr m (p + 32) mm (pp + 32) (n - 32) (by omega) a32]
  · simp only [if_neg h31]
    try dsimp only
    by_cases h15 : n > 15
    · have a0 : agreeB m p mm pp 16 := fun i hi => h i (by omega)
      simp only [if_pos h15]
      try dsimp only
      rw [hash16_congr m p mm pp s1 s5 a0]
      by_cases h7 : n - 16 > 7
      · have a16 := agreeB_shift m p mm pp n 16 8 h (by omega)
        push_cast at a16
        have a24 := agreeB_shift m p mm pp n 24 (n - 24) h (by omega)
        push_cast at a24
        simp only [if_pos h7]
        try dsimp only
        rw [kh_lu64ec_congr m (p + 16) mm (pp + 16) a16,
          show p + 16 + 8 = p + 24 by ring, show pp + 16 + 8 = pp + 24 by ring,
          show n - 16 - 8 = n - 24 by omega,
          kh_lpu64ec_l4_congr m (p + 24) mm (pp + 24) (n - 24) (by omega) a24]
      · have a16 := agreeB_shift m p mm pp n 16 (n - 16) h (by omega)
        push_cast at a16
        simp only [if_neg h7]
        try dsimp only
        rw [kh_lpu64ec_l4_congr m (p + 16) mm (pp + 16) (n - 16) (by omega) a16]
    · simp only [if_neg h15]
      try dsimp only
      by_cases h7 : n > 7
      · have a0 : agreeB m p mm pp 8 := fun i hi => h i (by omega)
        have a8 := agreeB_shift m p mm pp n 8 (n - 8) h (by omega)
        push_cast at a8
        simp only [if_pos h7]
        try dsimp only
        rw [kh_lu64ec_congr m p mm pp a0,
          kh_lpu64ec_l4_congr m (p + 8) mm (pp + 8) (n - 8) (by omega) a8]
      · simp only [if_neg h7]
        try dsimp only
        rw [kh_lpu64ec_l4_congr m p mm pp n (by omega) h]

/-- `hashLoop64` specification in terms of `len / 64` and `len % 64`. -/
theorem hashLoop64_spec' (m : Mem) (fuel : Nat) (p : Int) (len : Nat) (L : Lanes)
    (h63 : len > 63) (hf : len ≤ fuel) :
    hashLoop64 m fuel p len L =
      (p + 64 * ((len / 64 : Nat) : Int), len % 64, bulkAbsorb m p (len / 64) L) := by
  have hdm : 64 * (len / 64) + len % 64 = len := Nat.div_add_mod len 64
  have h1 : hashLoop64 m fuel p len L = hashLoop64 m fuel p (64 * (len / 64) + len % 64) L := by
    rw [hdm]
  rw [h1]
  exact hashLoop64_spec m (len / 64) fuel p (len % 64) L (by omega) (by omega) (by omega)

/-- `komihash` only depends on the `n` message bytes at `p`. -/
theorem komihash_congr (m : Mem) (p : Int) (mm : Mem) (pp : Int) (n seed : Nat)
    (h : agreeB m p mm pp n) : komihash m p n seed = komihash mm pp n seed := by
  simp only [komihash]
  by_cases h16 : n < 16
  · simp only [if_pos h16]
    try dsimp only
    by_cases h7 : n > 7
    · have a0 : agreeB m p mm pp 8 := fun i hi => h i (by omega)
      have a8 := agreeB_shift m p mm pp n 8 (n - 8) h (by omega)
      push_cast at a8
      simp only [if_pos h7]
      rw [kh_lu64ec_congr m p mm pp a0,
        kh_lpu64ec_l3_congr m (p + 8) mm (pp + 8) (n - 8) (by omega) a8]
    · simp only [if_neg h7]
      by_cases h0 : n ≠ 0
      · simp only [if_pos h0]
        rw [kh_lpu64ec_nz_congr m p mm pp n (by omega) (by omega) h]
      · simp only [if_neg h0]
  · simp only [if_neg h16]
    by_cases h32 : n < 32
    · have a0 : agreeB m p mm pp 16 := fun i hi => h i (by omega)
      simp only [if_pos h32]
      try dsimp only
      rw [hash16_congr m p mm pp _ _ a0]
      by_cases h23 : n > 23
      · have a16 := agreeB_shift m p mm pp n 16 8 h (by omega)
        push_cast at a16
        have a24 := agreeB_shift m p mm pp n 24 (n - 24) h (by omega)
        push_cast at a24
        simp only [if_pos h23]
        try dsimp only
        rw [kh_lu64ec_congr m (p + 16) mm (pp + 16) a16,
          kh_lpu64ec_l4_congr m (p + 24) mm (pp + 24) (n - 24) (by omega) a24]
      · have a16 := agreeB_shift m p mm pp n 16 (n - 16) h (by omega)
        push_cast at a16
        simp only [if_neg h23]
        try dsimp only
        rw [kh_lpu64ec_l4_congr m (p + 16) mm (pp + 16) (n - 16) (by omega) a16]
    · by_cases h63 : n > 63
      · simp only [if_neg h32, if_pos h63]
        try dsimp only
        rw [hashLoop64_spec' m n p n _ h63 (le_refl n),
          hashLoop64_spec' mm n pp n _ h63 (le_refl n)]
        try dsimp only
        rw [bulkAbsorb_congr m mm (n / 64) p pp _ (fun i hi => h i (by omega))]
        refine komihash_epi_congr m _ mm _ _ _ _ (by omega) ?_
        have hs := agreeB_shift m p mm pp n (64 * (n / 64)) (n % 64) h (by omega)
        push_cast at hs
        exact hs
      · simp only [if_neg h32, if_neg h63]
        exact komihash_epi_congr m p mm pp n _ _ (by omega) h

/-- Bulk decomposition of `komihash` for messages longer than 63 bytes. -/
theorem komihash_bulk (m : Mem) (p : Int) (len seed : Nat) (h63 : len > 63) :
    komihash m p len seed =
      komihash_epi m (p + 64 * ((len / 64 : Nat) : Int)) (len % 64)
        ((bulkAbsorb m p (len / 64) (initLanes seed)).s1 ^^^
          (bulkAbsorb m p (len / 64) (initLanes seed)).s2 ^^^
          (bulkAbsorb m p (len / 64) (initLanes seed)).s3 ^^^
          (bulkAbsorb m p (len / 64) (initLanes seed)).s4)
        ((bulkAbsorb m p (len / 64) (initLanes seed)).s5 ^^^
          (bulkAbsorb m p (len / 64) (initLanes seed)).s6 ^^^
          (bulkAbsorb m p (len / 64) (initLanes seed)).s7 ^^^
          (bulkAbsorb m p (len / 64) (initLanes seed)).s8) := by
  simp only [komihash]
  rw [if_neg (by omega : ¬ len < 16), if_neg (by omega : ¬ len < 32), if_pos h63]
  try dsimp only
  rw [hashLoop64_spec' m len p len _ h63 (le_refl len)]
  rfl

/-!  The streaming invariant. -/

/-- Reading a list-backed memory at a nonnegative address. -/
theorem memOfList_nonneg (l : List Nat) (z : Int) (hz : 0 ≤ z) :
    memOfList l z = l.getD z.toNat 0 := by
  simp only [memOfList, if_pos hz]

/-- Reading a list-backed memory at a `Nat` index. -/
theorem memOfList_nat (l : List Nat) (i : Nat) :
    memOfList l (i : Int) = l.getD i 0 := by
  rw [memOfList_nonneg l _ (by omega)]
  simp

/-- `getD` of a `take`, inside the window. -/
theorem getD_take (l : List Nat) (k i : Nat) (hik : i < k) :
    (l.take k).getD i 0 = l.getD i 0 := by
  by_cases hl : i < l.length
  · rw [List.getD_eq_getElem _ _ (by simp [List.length_take]; omega),
      List.getD_eq_getElem _ _ hl]
    exact List.getElem_take l
  · rw [List.getD_eq_default _ _ (by simp [List.length_take]; omega),
      List.getD_eq_default _ _ (by omega)]

/-- `getD` of a `drop`. -/
theorem getD_drop (l : List Nat) (k i : Nat) :
    (l.drop k).getD i 0 = l.getD (k + i) 0 := by
  by_cases h : k + i < l.length
  · rw [List.getD_eq_getElem _ _ (by simp [List.length_drop]; omega),
      List.getD_eq_getElem _ _ h]
    exact List.getElem_drop l
  · rw [List.getD_eq_default _ _ (by simp [List.length_drop]; omega),
      List.getD_eq_default _ _ (by omega)]

/-- Storing lanes in `Seed[ ]` and reloading them is the identity. -/
theorem lanesOfSeed_seedOfLanes (L : Lanes) : lanesOfSeed (seedOfLanes L) = L := by
  rfl

/-- Invariant tying a streaming context to the seed it was initialized with
and the byte sequence `P` fed so far: either hashing has not started and
`Buf` holds all of `P` (which is then shorter than the buffer), or the
lanes hold the absorption of the first `64 q` bytes of `P` and `Buf` holds
the remaining tail, which is shorter than the buffer. -/
def StreamInv (seed : Nat) (P : List Nat) (c : KCtx) : Prop :=
  (c.IsHashing = 0 ∧ c.Seed 0 = seed ∧ c.BufFill = P.length ∧ P.length < 768 ∧
    (∀ i : Nat, i < P.length → c.buf (i : Int) = P.getD i 0))
  ∨ (c.IsHashing = 1 ∧ ∃ q : Nat,
      1 ≤ q ∧ 64 * q ≤ P.length ∧ c.BufFill = P.length - 64 * q ∧
      P.length - 64 * q < 768 ∧
      lanesOfSeed c.Seed = bulkAbsorb (memOfList P) 0 q (initLanes seed) ∧
      (∀ i : Nat, i < P.length - 64 * q → c.buf (i : Int) = P.getD (64 * q + i) 0))

/-- Mid-update invariant: a context whose buffer is conceptually empty,
all of `P` being absorbed (or `P` empty before hashing starts). -/
def StreamInvMid (seed : Nat) (P : List Nat) (c : KCtx) : Prop :=
  (c.IsHashing = 0 ∧ c.Seed 0 = seed ∧ P = [])
  ∨ (c.IsHashing = 1 ∧ ∃ q : Nat, 1 ≤ q ∧ 64 * q = P.length ∧
      lanesOfSeed c.Seed = bulkAbsorb (memOfList P) 0 q (initLanes seed))

/-- Byte agreement between a raw input view and the list it feeds. -/
def rawAgree (mm : Mem) (msg : Int) (X : List Nat) : Prop :=
  ∀ i : Nat, i < X.length → mm (msg + (i : Int)) = X.getD i 0

/-- Reading a byte of a list-backed memory. -/
theorem khB_memOfList (l : List Nat) (z : Int) (hz : 0 ≤ z) :
    khB (memOfList l) z = l.getD z.toNat 0 % 256 := by
  rw [khB, memOfList_nonneg l z hz]

/-- Absorbing `k` further blocks from an input view that feeds the bytes
`X` extends the absorption of `P` to an absorption of a prefix of
`P ++ X`. -/
theorem absorb_lanes (seed : Nat) (P X : List Nat) (mm : Mem) (msg : Int) (k q : Nat)
    (hq : 64 * q = P.length) (hkX : 64 * k ≤ X.length) (hraw : rawAgree mm msg X) :
    bulkAbsorb mm msg k (bulkAbsorb (memOfList P) 0 q (initLanes seed)) =
      bulkAbsorb (memOfList (P ++ X)) 0 (q + k) (initLanes seed) := by
  rw [bulkAbsorb_add (memOfList (P ++ X)) q k 0 (initLanes seed)]
  have h1 : bulkAbsorb (memOfList (P ++ X)) 0 q (initLanes seed)
      = bulkAbsorb (memOfList P) 0 q (initLanes seed) := by
    apply bulkAbsorb_congr
    intro i hi
    rw [khB_memOfList _ _ (by omega), khB_memOfList _ _ (by omega)]
    have e : ((0 : Int) + (i : Int)).toNat = i := by omega
    rw [e, List.getD_append _ _ _ _ (by omega)]
  have h2 : bulkAbsorb mm msg k (bulkAbsorb (memOfList P) 0 q (initLanes seed))
      = bulkAbsorb (memOfList (P ++ X)) (0 + 64 * (q : Int)) k
          (bulkAbsorb (memOfList P) 0 q (initLanes seed)) := by
    apply bulkAbsorb_congr
    intro i hi
    rw [khB, khB_memOfList _ _ (by omega), hraw i (by omega)]
    have e : ((0 : Int) + 64 * (q : Int) + (i : Int)).toNat = 64 * q + i := by omega
    rw [e, List.getD_append_right _ _ _ _ (by omega)]
    have e2 : 64 * q + i - P.length = i := by omega
    rw [e2]
  rw [h1, ← h2]

/-- Evaluation of `writeRegion` inside the written window. -/
theorem writeRegion_in (F : Mem) (dst : Int) (src : Mem) (sp : Int) (len : Nat) (j : Int)
    (h1 : dst ≤ j) (h2 : j < dst + (len : Int)) :
    writeRegion F dst src sp len j = src (sp + (j - dst)) := by
  simp only [writeRegion, if_pos (And.intro h1 h2)]

/-- Evaluation of `writeRegion` outside the written window. -/
theorem writeRegion_out (F : Mem) (dst : Int) (src : Mem) (sp : Int) (len : Nat) (j : Int)
    (h : j < dst ∨ dst + (len : Int) ≤ j) :
    writeRegion F dst src sp len j = F j := by
  have hn : ¬ (dst ≤ j ∧ j < dst + (len : Int)) := by omega
  simp only [writeRegion, if_neg hn]

/-- Running the `while` loop of `komihash_stream_update` with no pending
switch input preserves the invariant, the fed bytes being extended by the
bytes `X` of the current input view. -/
theorem inv_streamWhile (f : Nat) (seed : Nat) (P X : List Nat) (c : KCtx)
    (mm cm : Mem) (msg sw : Int)
    (h : StreamInvMid seed P c) (hraw : rawAgree mm msg X) :
    StreamInv seed (P ++ X) (streamWhile (f + 1) c mm msg X.length cm sw 0) := by
  simp only [streamWhile]
  by_cases hlen : X.length > 127
  · rw [if_pos hlen]
    try dsimp only
    rcases h with ⟨h0, hs, hP⟩ | ⟨h1, q, hq1, hq, hlanes⟩
    · subst hP
      rw [if_neg (by simp [h0] : ¬ c.IsHashing ≠ 0)]
      try dsimp only
      rw [hashLoop64_spec' mm X.length msg X.length _ (by omega) (le_refl _)]
      try dsimp only
      rw [hs]
      have habs := absorb_lanes seed [] X mm msg (X.length / 64) 0 (by simp) (by omega) hraw
      have hz : bulkAbsorb (memOfList []) 0 0 (initLanes seed) = initLanes seed := rfl
      rw [hz] at habs
      simp only [List.nil_append, Nat.zero_add] at habs
      try simp only [if_pos rfl]
      try simp only [if_true]
      by_cases hr : X.length % 64 ≠ 0
      · rw [if_pos hr]
        refine Or.inr ⟨rfl, X.length / 64, by omega, by simp; omega, ?_, ?_, ?_, ?_⟩
        · try simp only [appendBytes, List.nil_append]
          omega
        · try simp only [List.nil_append]
          omega
        · try simp only [appendBytes]
          rw [lanesOfSeed_seedOfLanes, habs]
          simp only [List.nil_append]
        · intro i hi
          try simp only [appendBytes, List.nil_append] at hi ⊢
          rw [writeRegion_in _ _ _ _ _ _ (by omega) (by omega)]
          have e : msg + 64 * ((X.length / 64 : Nat) : Int) + ((i : Int) - ((0 : Nat) : Int))
              = msg + ((64 * (X.length / 64) + i : Nat) : Int) := by
            push_cast
            ring
          rw [e, hraw (64 * (X.length / 64) + i) (by omega)]
      · rw [if_neg hr]
        refine Or.inr ⟨rfl, X.length / 64, by omega, by simp; omega, ?_, ?_, ?_, ?_⟩
        · try simp only [List.nil_append]
          omega
        · try simp only [List.nil_append]
          omega
        · rw [lanesOfSeed_seedOfLanes, habs]
          simp only [List.nil_append]
        · intro i hi
          try simp only [List.nil_append] at hi
          omega
    · rw [if_pos (by simp [h1] : c.IsHashing ≠ 0)]
      try dsimp only
      rw [hashLoop64_spec' mm X.length msg X.length _ (by omega) (le_refl _)]
      try dsimp only
      rw [hlanes]
      have habs := absorb_lanes seed P X mm msg (X.length / 64) q hq (by omega) hraw
      try simp only [if_pos rfl]
      try simp only [if_true]
      by_cases hr : X.length % 64 ≠ 0
      · rw [if_pos hr]
        refine Or.inr ⟨h1, q + X.length / 64, by omega, by simp; omega, ?_, ?_, ?_, ?_⟩
        · try simp only [appendBytes, List.length_append]
          omega
        · try simp only [List.length_append]
          omega
        · try simp only [appendBytes]
          rw [lanesOfSeed_seedOfLanes, habs]
        · intro i hi
          try simp only [appendBytes, List.length_append] at hi ⊢
          rw [writeRegion_in _ _ _ _ _ _ (by omega) (by omega)]
          have e : msg + 64 * ((X.length / 64 : Nat) : Int) + ((i : Int) - ((0 : Nat) : Int))
              = msg + ((64 * (X.length / 64) + i : Nat) : Int) := by
            push_cast
            ring
          rw [e, hraw (64 * (X.length / 64) + i) (by omega)]
          rw [List.getD_append_right _ _ _ _ (by omega)]
          have e2 : 64 * (q + X.length / 64) + i - P.length = 64 * (X.length / 64) + i := by
            omega
          rw [e2]
      · rw [if_neg hr]
        refine Or.inr ⟨h1, q + X.length / 64, by omega, by simp; omega, ?_, ?_, ?_, ?_⟩
        · try simp only [List.length_append]
          omega
        · try simp only [List.length_append]
          omega
        · rw [lanesOfSeed_seedOfLanes, habs]
        · intro i hi
          try simp only [List.length_append] at hi
          omega
  · rw [if_neg hlen]
    try dsimp only
    rcases h with ⟨h0, hs, hP⟩ | ⟨h1, q, hq1, hq, hlanes⟩
    · subst hP
      refine Or.inl ⟨h0, hs, ?_, by simp; omega, ?_⟩
      · try simp only [appendBytes, List.nil_append]
        omega
      · intro i hi
        try simp only [appendBytes, List.nil_append] at hi ⊢
        rw [writeRegion_in _ _ _ _ _ _ (by omega) (by omega)]
        have e : msg + ((i : Int) - ((0 : Nat) : Int)) = msg + ((i : Nat) : Int) := by
          push_cast
          ring
        rw [e, hraw i (by omega)]
    · refine Or.inr ⟨h1, q, hq1, by simp; omega, ?_, ?_, ?_, ?_⟩
      · try simp only [appendBytes, List.length_append]
        omega
      · try simp only [List.length_append]
        omega
      · try simp only [appendBytes]
        have habs := absorb_lanes seed P X mm msg 0 q hq (by omega) hraw
        have hz : bulkAbsorb mm msg 0 (bulkAbsorb (memOfList P) 0 q (initLanes seed))
            = bulkAbsorb (memOfList P) 0 q (initLanes seed) := rfl
        rw [hz] at habs
        rw [hlanes, habs]
        have e : q + 0 = q := by omega
        rw [e]
      · intro i hi
        try simp only [appendBytes, List.length_append] at hi ⊢
        rw [writeRegion_in _ _ _ _ _ _ (by omega) (by omega)]
        have e : msg + ((i : Int) - ((0 : Nat) : Int)) = msg + ((i : Nat) : Int) := by
          push_cast
          ring
        rw [e, hraw i (by omega)]
        rw [List.getD_append_right _ _ _ _ (by omega)]
        have e2 : 64 * q + i - P.length = i := by omega
        rw [e2]

/-- Running the `while` loop on a just-filled 768-byte buffer with a
non-empty pending switch input: the buffer is absorbed whole and the loop
continues on the switch input. -/
theorem inv_streamWhile_flush (f : Nat) (seed : Nat) (P X Y : List Nat) (c : KCtx)
    (mm cm : Mem) (msg sw : Int)
    (h : StreamInvMid seed P c) (hX : X.length = 768)
    (hrawX : rawAgree mm msg X) (hrawY : rawAgree cm sw Y) (hY : Y.length ≠ 0) :
    StreamInv seed (P ++ X ++ Y) (streamWhile (f + 2) c mm msg 768 cm sw Y.length) := by
  rw [streamWhile]
  rw [if_pos (by omega : (768 : Nat) > 127)]
  try dsimp only
  have happly : StreamInvMid seed (P ++ X) ({ (if c.IsHashing ≠ 0 then (c, lanesOfSeed c.Seed)
      else ({ c with IsHashing := 1 }, initLanes (c.Seed 0))).1 with
      Seed := seedOfLanes (bulkAbsorb mm msg (768 / 64)
        (if c.IsHashing ≠ 0 then (c, lanesOfSeed c.Seed)
          else ({ c with IsHashing := 1 }, initLanes (c.Seed 0))).2) } : KCtx) := by
    rcases h with ⟨h0, hs, hP⟩ | ⟨h1, q, hq1, hq, hlanes⟩
    · subst hP
      rw [if_neg (by simp [h0] : ¬ c.IsHashing ≠ 0)]
      try dsimp only
      refine Or.inr ⟨rfl, 12, by omega, by simp; omega, ?_⟩
      rw [lanesOfSeed_seedOfLanes, hs]
      have habs := absorb_lanes seed [] X mm msg 12 0 (by simp) (by omega) hrawX
      have hz : bulkAbsorb (memOfList []) 0 0 (initLanes seed) = initLanes seed := rfl
      rw [hz] at habs
      simp only [List.nil_append, Nat.zero_add] at habs
      rw [show (768 : Nat) / 64 = 12 by norm_num, habs]
      simp [List.nil_append]
    · rw [if_pos (by simp [h1] : c.IsHashing ≠ 0)]
      try dsimp only
      refine Or.inr ⟨h1, q + 12, by omega, by simp; omega, ?_⟩
      rw [lanesOfSeed_seedOfLanes, hlanes]
      have habs := absorb_lanes seed P X mm msg 12 q hq (by omega) hrawX
      rw [show (768 : Nat) / 64 = 12 by norm_num, habs]
  rw [hashLoop64_spec' mm 768 msg 768 _ (by omega) (le_refl _)]
  try dsimp only
  rw [if_neg hY]
  exact inv_streamWhile f seed (P ++ X) Y _ cm cm sw sw happly hrawY

/-- Plain append into the buffer (no flush, no bulk processing) preserves
the invariant. -/
theorem inv_append (seed : Nat) (P chunk : List Nat) (c : KCtx)
    (h : StreamInv seed P c) (hlt : c.BufFill + chunk.length < 768) :
    StreamInv seed (P ++ chunk)
      (appendBytes c c.BufFill (memOfList chunk) 0 chunk.length) := by
  rcases h with ⟨h0, hs, hbf, hlen, hbytes⟩ | ⟨h1, q, hq1, hql, hbf, htail, hlanes, hbytes⟩
  · refine Or.inl ⟨h0, hs, ?_, by simp; omega, ?_⟩
    · simp only [appendBytes, List.length_append]
      omega
    · intro i hi
      simp only [appendBytes, List.length_append] at hi ⊢
      by_cases hio : i < P.length
      · rw [writeRegion_out _ _ _ _ _ _ (by omega)]
        rw [hbytes i hio, List.getD_append _ _ _ _ hio]
      · rw [writeRegion_in _ _ _ _ _ _ (by omega) (by omega)]
        rw [memOfList_nonneg _ _ (by omega)]
        rw [List.getD_append_right _ _ _ _ (by omega)]
        have e : ((0 : Int) + ((i : Int) - ((c.BufFill : Nat) : Int))).toNat = i - P.length := by
          omega
        rw [e]
  · refine Or.inr ⟨h1, q, hq1, by simp; omega, ?_, ?_, ?_, ?_⟩
    · simp only [appendBytes, List.length_append]
      omega
    · simp only [List.length_append]
      omega
    · simp only [appendBytes]
      rw [hlanes]
      have hcong : bulkAbsorb (memOfList (P ++ chunk)) 0 q (initLanes seed)
          = bulkAbsorb (memOfList P) 0 q (initLanes seed) := by
        apply bulkAbsorb_congr
        intro i hi
        rw [khB_memOfList _ _ (by omega), khB_memOfList _ _ (by omega)]
        have e : ((0 : Int) + (i : Int)).toNat = i := by omega
        rw [e, List.getD_append _ _ _ _ (by omega)]
      rw [hcong]
    · intro i hi
      simp only [appendBytes, List.length_append] at hi ⊢
      by_cases hio : i < c.BufFill
      · rw [writeRegion_out _ _ _ _ _ _ (by omega)]
        rw [hbytes i (by omega), List.getD_append _ _ _ _ (by omega)]
      · rw [writeRegion_in _ _ _ _ _ _ (by omega) (by omega)]
        rw [memOfList_nonneg _ _ (by omega)]
        rw [List.getD_append_right _ _ _ _ (by omega)]
        have e : ((0 : Int) + ((i : Int) - ((c.BufFill : Nat) : Int))).toNat
            = 64 * q + i - P.length := by
          omega
        rw [e]

/-- One `komihash_stream_update` call preserves the invariant. -/
theorem feed_preserves (seed : Nat) (P chunk : List Nat) (c : KCtx)
    (h : StreamInv seed P c) :
    StreamInv seed (P ++ chunk) (feed c chunk) := by
  simp only [feed, komihash_stream_update]
  by_cases hfl : 768 ≤ c.BufFill + chunk.length ∧ c.BufFill ≠ 0
  · rw [if_pos hfl]
    try dsimp only
    rcases h with ⟨h0, hs, hbf, hlen, hbytes⟩ | ⟨h1, q, hq1, hql, hbf, htail, hlanes, hbytes⟩
    · have hCn : 768 - c.BufFill ≤ chunk.length := by omega
      have hXlen : (P ++ chunk.take (768 - c.BufFill)).length = 768 := by
        simp only [List.length_append, List.length_take]
        omega
      have hmid : StreamInvMid seed []
          ({ c with buf := writeRegion c.buf ((c.BufFill : Nat) : Int)
                             (memOfList chunk) 0 (768 - c.BufFill) } : KCtx) :=
        Or.inl ⟨h0, hs, rfl⟩
      have hrawX : rawAgree (writeRegion c.buf ((c.BufFill : Nat) : Int)
          (memOfList chunk) 0 (768 - c.BufFill)) 0 (P ++ chunk.take (768 - c.BufFill)) := by
        intro i hi
        rw [hXlen] at hi
        rw [zero_add]
        by_cases hio : i < P.length
        · rw [writeRegion_out _ _ _ _ _ _ (Or.inl (by omega))]
          rw [hbytes i hio, List.getD_append _ _ _ _ hio]
        · rw [writeRegion_in _ _ _ _ _ _ (by omega) (by omega)]
          rw [memOfList_nonneg _ _ (by omega)]
          rw [List.getD_append_right _ _ _ _ (by omega)]
          have e : ((0 : Int) + ((i : Int) - ((c.BufFill : Nat) : Int))).toNat
              = i - P.length := by omega
          rw [e, getD_take _ _ _ (by omega)]
      by_cases hsw : chunk.length - (768 - c.BufFill) = 0
      · rw [hsw]
        have h2 := inv_streamWhile 1 seed [] (P ++ chunk.take (768 - c.BufFill))
          ({ c with buf := writeRegion c.buf ((c.BufFill : Nat) : Int)
                             (memOfList chunk) 0 (768 - c.BufFill) } : KCtx)
          (writeRegion c.buf ((c.BufFill : Nat) : Int) (memOfList chunk) 0 (768 - c.BufFill))
          (memOfList chunk) 0 (0 + ((768 - c.BufFill : Nat) : Int)) hmid hrawX
        rw [hXlen, List.nil_append] at h2
        have htk : chunk.take (768 - c.BufFill) = chunk := by
          have hce : 768 - c.BufFill = chunk.length := by omega
          rw [hce, List.take_length]
        rw [htk] at h2
        exact h2
      · have hY : (chunk.drop (768 - c.BufFill)).length ≠ 0 := by
          rw [List.length_drop]; omega
        have hrawY : rawAgree (memOfList chunk) (0 + ((768 - c.BufFill : Nat) : Int))
            (chunk.drop (768 - c.BufFill)) := by
          intro i hi
          rw [memOfList_nonneg _ _ (by omega)]
          have e : ((0 : Int) + ((768 - c.BufFill : Nat) : Int) + (i : Int)).toNat
              = (768 - c.BufFill) + i := by omega
          rw [e, getD_drop]
        have h2 := inv_streamWhile_flush 0 seed [] (P ++ chunk.take (768 - c.BufFill))
          (chunk.drop (768 - c.BufFill))
          ({ c with buf := writeRegion c.buf ((c.BufFill : Nat) : Int)
                             (memOfList chunk) 0 (768 - c.BufFill) } : KCtx)
          (writeRegion c.buf ((c.BufFill : Nat) : Int) (memOfList chunk) 0 (768 - c.BufFill))
          (memOfList chunk) 0 (0 + ((768 - c.BufFill : Nat) : Int))
          hmid hXlen hrawX hrawY hY
        rw [List.nil_append] at h2
        have hYl : (chunk.drop (768 - c.BufFill)).length
            = chunk.length - (768 - c.BufFill) := by
          rw [List.length_drop]
        rw [hYl] at h2
        have hl : (P ++ chunk.take (768 - c.BufFill)) ++ chunk.drop (768 - c.BufFill)
            = P ++ chunk := by
          rw [List.append_assoc, List.take_append_drop]
        rw [hl] at h2
        exact h2
    · have hCn : 768 - c.BufFill ≤ chunk.length := by omega
      have hXlen : (P.drop (64 * q) ++ chunk.take (768 - c.BufFill)).length = 768 := by
        simp only [List.length_append, List.length_drop, List.length_take]
        omega
      have hmid : StreamInvMid seed (P.take (64 * q))
          ({ c with buf := writeRegion c.buf ((c.BufFill : Nat) : Int)
                             (memOfList chunk) 0 (768 - c.BufFill) } : KCtx) := by
        refine Or.inr ⟨h1, q, hq1, ?_, ?_⟩
        · rw [List.length_take]; omega
        · show lanesOfSeed c.Seed = _
          rw [hlanes]
          apply bulkAbsorb_congr
          intro i hi
          rw [khB_memOfList _ _ (by omega), khB_memOfList _ _ (by omega)]
          have e : ((0 : Int) + (i : Int)).toNat = i := by omega
          rw [e, getD_take _ _ _ (by omega)]
      have hrawX : rawAgree (writeRegion c.buf ((c.BufFill : Nat) : Int)
          (memOfList chunk) 0 (768 - c.BufFill)) 0
          (P.drop (64 * q) ++ chunk.take (768 - c.BufFill)) := by
        intro i hi
        rw [hXlen] at hi
        rw [zero_add]
        by_cases hio : i < P.length - 64 * q
        · rw [writeRegion_out _ _ _ _ _ _ (Or.inl (by omega))]
          rw [hbytes i (by omega)]
          rw [List.getD_append _ _ _ _ (by rw [List.length_drop]; omega)]
          rw [getD_drop]
        · rw [writeRegion_in _ _ _ _ _ _ (by omega) (by omega)]
          rw [memOfList_nonneg _ _ (by omega)]
          rw [List.getD_append_right _ _ _ _ (by rw [List.length_drop]; omega)]
          rw [List.length_drop]
          have e : ((0 : Int) + ((i : Int) - ((c.BufFill : Nat) : Int))).toNat
              = i - (P.length - 64 * q) := by omega
          rw [e, getD_take _ _ _ (by omega)]
      by_cases hsw : chunk.length - (768 - c.BufFill) = 0
      · rw [hsw]
        have h2 := inv_streamWhile 1 seed (P.take (64 * q))
          (P.drop (64 * q) ++ chunk.take (768 - c.BufFill))
          ({ c with buf := writeRegion c.buf ((c.BufFill : Nat) : Int)
                             (memOfList chunk) 0 (768 - c.BufFill) } : KCtx)
          (writeRegion c.buf ((c.BufFill : Nat) : Int) (memOfList chunk) 0 (768 - c.BufFill))
          (memOfList chunk) 0 (0 + ((768 - c.BufFill : Nat) : Int)) hmid hrawX
        rw [hXlen] at h2
        have htk : chunk.take (768 - c.BufFill) = chunk := by
          have hce : 768 - c.BufFill = chunk.length := by omega
          rw [hce, List.take_length]
        rw [htk] at h2
        have hl : P.take (64 * q) ++ (P.drop (64 * q) ++ chunk) = P ++ chunk := by
          rw [← List.append_assoc, List.take_append_drop]
        rw [hl] at h2
        exact h2
      · have hY : (chunk.drop (768 - c.BufFill)).length ≠ 0 := by
          rw [List.length_drop]; omega
        have hrawY : rawAgree (memOfList chunk) (0 + ((768 - c.BufFill : Nat) : Int))
            (chunk.drop (768 - c.BufFill)) := by
          intro i hi
          rw [memOfList_nonneg _ _ (by omega)]
          have e : ((0 : Int) + ((768 - c.BufFill : Nat) : Int) + (i : Int)).toNat
              = (768 - c.BufFill) + i := by omega
          rw [e, getD_drop]
        have h2 := inv_streamWhile_flush 0 seed (P.take (64 * q))
          (P.drop (64 * q) ++ chunk.take (768 - c.BufFill))
          (chunk.drop (768 - c.BufFill))
          ({ c with buf := writeRegion c.buf ((c.BufFill : Nat) : Int)
                             (memOfList chunk) 0 (768 - c.BufFill) } : KCtx)
          (writeRegion c.buf ((c.BufFill : Nat) : Int) (memOfList chunk) 0 (768 - c.BufFill))
          (memOfList chunk) 0 (0 + ((768 - c.BufFill : Nat) : Int))
          hmid hXlen hrawX hrawY hY
        have hYl : (chunk.drop (768 - c.BufFill)).length
            = chunk.length - (768 - c.BufFill) := by
          rw [List.length_drop]
        rw [hYl] at h2
        have hl : (P.take (64 * q) ++ (P.drop (64 * q) ++ chunk.take (768 - c.BufFill)))
            ++ chunk.drop (768 - c.BufFill) = P ++ chunk := by
          rw [List.append_assoc (P.take (64 * q)), List.append_assoc (P.drop (64 * q)),
            List.take_append_drop, ← List.append_assoc, List.take_append_drop]
        rw [hl] at h2
        exact h2
  · rw [if_neg hfl]
    by_cases hb0 : c.BufFill = 0
    · rw [if_pos hb0]
      rcases h with ⟨h0, hs, hbf, hlen, hbytes⟩ | ⟨h1, q, hq1, hql, hbf, htail, hlanes, hbytes⟩
      · have hP : P = [] := List.eq_nil_of_length_eq_zero (by omega)
        subst hP
        have hmid : StreamInvMid seed [] c := Or.inl ⟨h0, hs, rfl⟩
        exact inv_streamWhile 1 seed [] chunk c (memOfList chunk) (memOfList chunk) 0 0 hmid
          (fun i hi => by rw [zero_add, memOfList_nat])
      · have hq64 : 64 * q = P.length := by omega
        have hmid : StreamInvMid seed P c := Or.inr ⟨h1, q, hq1, hq64, hlanes⟩
        exact inv_streamWhile 1 seed P chunk c (memOfList chunk) (memOfList chunk) 0 0 hmid
          (fun i hi => by rw [zero_add, memOfList_nat])
    · rw [if_neg hb0]
      have hlt : c.BufFill + chunk.length < 768 := by
        have hx : ¬ 768 ≤ c.BufFill + chunk.length := fun hx => hfl ⟨hx, hb0⟩
        omega
      exact inv_append seed P chunk c h hlt

/-- On an invariant-satisfying context, `komihash_stream_final` returns the
one-shot hash of everything fed so far. -/
theorem final_inv_eq (seed : Nat) (P : List Nat) (c : KCtx) (h : StreamInv seed P c) :
    (komihash_stream_final c).1 = komihash (memOfList P) 0 P.length seed := by
  rcases h with ⟨h0, hs, hbf, hlen, hbytes⟩ | ⟨h1, q, hq1, hql, hbf, htail, hlanes, hbytes⟩
  · simp only [komihash_stream_final]
    rw [if_pos h0]
    try dsimp only
    rw [hbf, hs]
    apply komihash_congr
    intro i hi
    simp only [khB, zero_add]
    rw [hbytes i hi, memOfList_nat]
  · simp only [komihash_stream_final]
    rw [if_neg (by rw [h1]; omega)]
    try dsimp only
    rw [komihash_bulk _ _ _ _ (by omega : P.length > 63)]
    by_cases hn : c.BufFill > 63
    · rw [if_pos hn]
      try dsimp only
      rw [hashLoop64_spec' _ c.BufFill 0 c.BufFill (lanesOfSeed c.Seed) hn (le_refl _)]
      try dsimp only
      rw [hlanes]
      have hQ : P.length / 64 = q + c.BufFill / 64 := by omega
      have hr : P.length % 64 = c.BufFill % 64 := by omega
      rw [hQ, hr]
      simp only [bulkAbsorb_add (memOfList P) q (c.BufFill / 64) 0 (initLanes seed)]
      have hS : bulkAbsorb (fun j => if -4 ≤ j ∧ j < 0 then 0 else c.buf j) 0
            (c.BufFill / 64) (bulkAbsorb (memOfList P) 0 q (initLanes seed))
          = bulkAbsorb (memOfList P) (0 + 64 * (q : Int)) (c.BufFill / 64)
            (bulkAbsorb (memOfList P) 0 q (initLanes seed)) := by
        apply bulkAbsorb_congr
        intro i hi
        simp only [khB]
        rw [if_neg (by omega : ¬ ((-4 : Int) ≤ 0 + (i : Int) ∧ (0 : Int) + (i : Int) < 0))]
        have e1 : (0 : Int) + (i : Int) = ((i : Nat) : Int) := by omega
        rw [e1, hbytes i (by omega)]
        rw [memOfList_nonneg _ _ (by omega)]
        have e2 : ((0 : Int) + 64 * (q : Int) + (i : Int)).toNat = 64 * q + i := by omega
        rw [e2]
      simp only [hS]
      apply komihash_epi_congr _ _ _ _ _ _ _ (by omega)
      intro i hi
      simp only [khB]
      rw [if_neg (by omega :
        ¬ ((-4 : Int) ≤ 0 + 64 * ((c.BufFill / 64 : Nat) : Int) + (i : Int) ∧
           (0 : Int) + 64 * ((c.BufFill / 64 : Nat) : Int) + (i : Int) < 0))]
      have e1 : (0 : Int) + 64 * ((c.BufFill / 64 : Nat) : Int) + (i : Int)
          = ((64 * (c.BufFill / 64) + i : Nat) : Int) := by push_cast; ring
      rw [e1, hbytes _ (by omega)]
      rw [memOfList_nonneg _ _ (by omega)]
      have e2 : ((0 : Int) + 64 * ((q + c.BufFill / 64 : Nat) : Int) + (i : Int)).toNat
          = 64 * q + (64 * (c.BufFill / 64) + i) := by omega
      rw [e2]
    · rw [if_neg hn]
      try dsimp only
      rw [hlanes]
      have hQ : P.length / 64 = q := by omega
      have hr : P.length % 64 = c.BufFill := by omega
      rw [hQ, hr]
      apply komihash_epi_congr _ _ _ _ _ _ _ (by omega)
      intro i hi
      simp only [khB]
      rw [if_neg (by omega : ¬ ((-4 : Int) ≤ 0 + (i : Int) ∧ (0 : Int) + (i : Int) < 0))]
      have e1 : (0 : Int) + (i : Int) = ((i : Nat) : Int) := by omega
      rw [e1, hbytes i (by omega)]
      rw [memOfList_nonneg _ _ (by omega)]
      have e2 : ((0 : Int) + 64 * ((q : Nat) : Int) + (i : Int)).toNat = 64 * q + i := by
        omega
      rw [e2]

/-- `komihash_stream_init` establishes the invariant on the empty prefix. -/
theorem init_inv (c0 : KCtx) (seed : Nat) :
    StreamInv seed [] (komihash_stream_init c0 seed) :=
  Or.inl ⟨rfl, rfl, rfl, by simp, fun i hi => by simp at hi⟩

/-- The invariant bounds the buffer fill below the buffer size. -/
theorem inv_BufFill (seed : Nat) (P : List Nat) (c : KCtx) (h : StreamInv seed P c) :
    c.BufFill < 768 := by
  rcases h with ⟨h0, hs, hbf, hlen, hbytes⟩ | ⟨h1, q, hq1, hql, hbf, htail, hlanes, hbytes⟩
  · omega
  · omega

/-- `komihash_stream_final` preserves the invariant (it only clears the
padding bytes at negative offsets, which the invariant does not mention). -/
theorem final_preserves (seed : Nat) (P : List Nat) (c : KCtx) (h : StreamInv seed P c) :
    StreamInv seed P (komihash_stream_final c).2 := by
  rcases h with ⟨h0, hs, hbf, hlen, hbytes⟩ | ⟨h1, q, hq1, hql, hbf, htail, hlanes, hbytes⟩
  · simp only [komihash_stream_final]
    rw [if_pos h0]
    exact Or.inl ⟨h0, hs, hbf, hlen, hbytes⟩
  · simp only [komihash_stream_final]
    rw [if_neg (by rw [h1]; omega)]
    try dsimp only
    refine Or.inr ⟨h1, q, hq1, hql, hbf, htail, hlanes, ?_⟩
    intro i hi
    show (if (-4 : Int) ≤ (i : Int) ∧ (i : Int) < 0 then 0 else c.buf (i : Int)) = _
    rw [if_neg (by omega)]
    exact hbytes i hi

/-- Feeding a list of chunks preserves the invariant, appending their
concatenation to the fed prefix. -/
theorem feedAll_inv (seed : Nat) (chunks : List (List Nat)) :
    ∀ (P : List Nat) (c : KCtx), StreamInv seed P c →
    StreamInv seed (P ++ chunks.flatten) (feedAll c chunks) := by
  induction chunks with
  | nil =>
    intro P c h
    simpa [feedAll] using h
  | cons x xs ih =>
    intro P c h
    have h1 := feed_preserves seed P x c h
    have h2 := ih (P ++ x) (feed c x) h1
    simp only [feedAll, List.foldl_cons] at h2 ⊢
    rw [List.flatten_cons, ← List.append_assoc]
    exact h2

/-- C1: for every byte sequence, every seed and every partition of the
sequence into chunks, `komihash_stream_init` followed by one
`komihash_stream_update` per chunk and one `komihash_stream_final` returns
exactly the one-shot `komihash` of the whole sequence; in particular
`komihash_stream_oneshot` agrees with `komihash` on every input. -/
theorem claim_C1 (c0 : KCtx) (seed : Nat) (chunks : List (List Nat)) :
    (komihash_stream_final (feedAll (komihash_stream_init c0 seed) chunks)).1
      = komihash (memOfList chunks.flatten) 0 chunks.flatten.length seed
    ∧ ∀ (M : List Nat),
      komihash_stream_oneshot (memOfList M) 0 M.length seed c0
        = komihash (memOfList M) 0 M.length seed := by
  constructor
  · have h0 := init_inv c0 seed
    have h1 := feedAll_inv seed chunks [] _ h0
    rw [List.nil_append] at h1
    exact final_inv_eq seed _ _ h1
  · intro M
    have h0 := init_inv c0 seed
    have h1 := feed_preserves seed [] M _ h0
    rw [List.nil_append] at h1
    have h2 := final_inv_eq seed _ _ h1
    simp only [feed] at h2
    simp only [komihash_stream_oneshot]
    exact h2

/-- C6: on any context reached by `komihash_stream_init` and a sequence of
`komihash_stream_update` calls, `komihash_stream_final` called twice with no
update in between returns the same value, and an update–final pair after an
intermediate final returns the hash of the full concatenation, as if the
intermediate final had not been called. -/
theorem claim_C6 (c0 : KCtx) (seed : Nat) (chunks : List (List Nat)) :
    (komihash_stream_final
        (komihash_stream_final (feedAll (komihash_stream_init c0 seed) chunks)).2).1
      = (komihash_stream_final (feedAll (komihash_stream_init c0 seed) chunks)).1
    ∧ ∀ (x : List Nat),
      (komihash_stream_final
        (feed (komihash_stream_final (feedAll (komihash_stream_init c0 seed) chunks)).2 x)).1
        = komihash (memOfList (chunks.flatten ++ x)) 0 (chunks.flatten ++ x).length seed := by
  have h0 := init_inv c0 seed
  have h1 := feedAll_inv seed chunks [] _ h0
  rw [List.nil_append] at h1
  have h2 := final_preserves seed _ _ h1
  constructor
  · rw [final_inv_eq seed _ _ h2, final_inv_eq seed _ _ h1]
  · intro x
    have h3 := feed_preserves seed _ x _ h2
    exact final_inv_eq seed _ _ h3

/-- C7 counterexample: `komihash_stream_final` does modify the context when
hashing has begun — it zeroes the padding bytes `pb[4..7]` (offsets `-4..-1`
of the buffer), so a context holding a nonzero byte there comes back
changed. -/
theorem claim_C7_cex :
    ∃ c : KCtx, (komihash_stream_final c).2.buf (-4) ≠ c.buf (-4) := by
  refine ⟨⟨fun _ => 1, fun _ => 0, 0, 1⟩, ?_⟩
  simp only [komihash_stream_final]
  rw [if_neg (by omega : ¬ (1 : Nat) = 0)]
  try dsimp only
  rw [if_pos (by omega : (-4 : Int) ≤ -4 ∧ (-4 : Int) < 0)]
  omega

/-- C7 (amended): `komihash_stream_final` preserves `Seed[0..7]`, `BufFill`
and `IsHashing`, and every buffer byte outside the padding region
`pb[4..7]` (offsets `-4..-1`); when hashing has not begun it does not modify
the context at all. -/
theorem claim_C7 (c : KCtx) (j : Int) (hj : j < -4 ∨ 0 ≤ j) :
    (komihash_stream_final c).2.Seed = c.Seed
    ∧ (komihash_stream_final c).2.BufFill = c.BufFill
    ∧ (komihash_stream_final c).2.IsHashing = c.IsHashing
    ∧ (komihash_stream_final c).2.buf j = c.buf j
    ∧ (c.IsHashing = 0 → (komihash_stream_final c).2 = c) := by
  simp only [komihash_stream_final]
  by_cases h0 : c.IsHashing = 0
  · rw [if_pos h0]
    exact ⟨rfl, rfl, rfl, rfl, fun _ => rfl⟩
  · rw [if_neg h0]
    try dsimp only
    refine ⟨rfl, rfl, rfl, ?_, fun hc => absurd hc h0⟩
    show (if (-4 : Int) ≤ j ∧ j < 0 then 0 else c.buf j) = c.buf j
    rw [if_neg (by omega)]

/-- C7 witness: the amended preservation at a concrete context and a
concrete offset outside the padding region. -/
theorem claim_C7_witness :
    (komihash_stream_final ⟨fun _ => 1, fun _ => 0, 0, 1⟩).2.buf 5
      = (⟨fun _ => 1, fun _ => 0, 0, 1⟩ : KCtx).buf 5 :=
  (claim_C7 ⟨fun _ => 1, fun _ => 0, 0, 1⟩ 5 (Or.inr (by omega))).2.2.2.1

/-- C10: after `komihash_stream_init` and any finite sequence of
`komihash_stream_update` calls the context satisfies
`BufFill < KOMIHASH_BUFSIZE = 768` (so the byte-append loop stays within
`Buf`), and `komihash_stream_final` preserves this bound. -/
theorem claim_C10 (c0 : KCtx) (seed : Nat) (chunks : List (List Nat)) :
    (feedAll (komihash_stream_init c0 seed) chunks).BufFill < 768
    ∧ (komihash_stream_final (feedAll (komihash_stream_init c0 seed) chunks)).2.BufFill
        < 768 := by
  have h0 := init_inv c0 seed
  have h1 := feedAll_inv seed chunks [] _ h0
  rw [List.nil_append] at h1
  exact ⟨inv_BufFill seed _ _ h1, inv_BufFill seed _ _ (final_preserves seed _ _ h1)⟩
